import Mathlib

/-!
# Verification of the RAG4PeerFirm section extraction core

A shallow embedding, in Lean 4, of the table-of-contents locator, boundary
resolver, section extractor and outline builder of the repository
(`src/itemextraction/parser.py`, `src/itemextraction/extractor.py`,
`src/structure_extractor.py`), together with theorems settling the frozen
claims about them.

Strings are modelled as `List Char` (Python `str`), byte/character offsets
as `Nat`, `None`-able values as `Option`, and the Python regular
expressions used by the code as hand-rolled decidable matchers with the
same semantics on the relevant pattern class.  HTML parsing by
BeautifulSoup is external to the repository: tree-shaped claims take the
parsed tree (`HNode`) as input, and string-offset claims work on the raw
text exactly as the Python code does.
-/

namespace RAG4PeerFirm

/-! ## Basic character and string helpers (Python semantics) -/

/-- Python `\s` (ASCII whitespace as used by the documents at hand). -/
def isPySpace (c : Char) : Bool :=
  c = ' ' || c = '\t' || c = '\n' || c = '\r' || c = '\x0b' || c = '\x0c'

/-- ASCII lower-casing, as Python `str.lower` acts on ASCII text. -/
def pyLower (c : Char) : Char :=
  if 'A' ≤ c ∧ c ≤ 'Z' then Char.ofNat (c.toNat + 32) else c

def lowerL (cs : List Char) : List Char := cs.map pyLower

/-- ASCII decimal digit (`\d`, `str.isdigit` on ASCII text). -/
def isDigitC (c : Char) : Bool := '0' ≤ c ∧ c ≤ '9'

/-- Python regex word character `\w` restricted to ASCII. -/
def isWordC (c : Char) : Bool :=
  ('a' ≤ c ∧ c ≤ 'z') || ('A' ≤ c ∧ c ≤ 'Z') || isDigitC c || c = '_'

def isAsciiLetter (c : Char) : Bool :=
  ('a' ≤ c ∧ c ≤ 'z') || ('A' ≤ c ∧ c ≤ 'Z')

/-- Consume the pattern `pat` case-insensitively from the front of `cs`,
returning the remainder. -/
def eatCI : List Char → List Char → Option (List Char)
  | [], cs => some cs
  | _ :: _, [] => none
  | p :: ps, c :: cs => if pyLower c = pyLower p then eatCI ps cs else none

/-- Consume one specific character. -/
def eatChar (ch : Char) : List Char → Option (List Char)
  | [] => none
  | c :: cs => if c = ch then some cs else none

/-- Skip `\s*`. -/
def eatWs (cs : List Char) : List Char := cs.dropWhile isPySpace

/-- Consume one quote character (`['\"]` in the Python patterns: either a
single or a double quote, independently chosen). -/
def eatQuote : List Char → Option (List Char)
  | [] => none
  | c :: cs => if c = '\'' ∨ c = '"' then some cs else none

/-- `cs` contains `sub` as a contiguous sublist. -/
def containsSub (sub : List Char) (cs : List Char) : Bool :=
  (List.range (cs.length + 1)).any fun i => (cs.drop i).take sub.length = sub

/-- Case-insensitive substring containment. -/
def containsSubCI (sub : List Char) (cs : List Char) : Bool :=
  containsSub (lowerL sub) (lowerL cs)

/-! ## Index search primitives -/

/-- Scan `n` consecutive indices starting at `s` for the first one
satisfying `p`. -/
def firstIdxAux (p : Nat → Bool) : Nat → Nat → Option Nat
  | _, 0 => none
  | s, n + 1 => if p s then some s else firstIdxAux p (s + 1) n

/-- Least index `i` with `s ≤ i < bound` satisfying `p`; the search loop of
`re.search` over match start positions. -/
def firstIdxFrom (p : Nat → Bool) (s bound : Nat) : Option Nat :=
  firstIdxAux p s (bound - s)

/-- Greatest index `j < e` satisfying `p`; Python `str.rfind(c, 0, e)`
(with `none` standing for `-1`). -/
def lastIdxLt (p : Nat → Bool) : Nat → Option Nat
  | 0 => none
  | e + 1 => if p e then some e else lastIdxLt p e

theorem firstIdxAux_some {p : Nat → Bool} :
    ∀ {n s r}, firstIdxAux p s n = some r →
      s ≤ r ∧ r < s + n ∧ p r = true ∧ ∀ q, s ≤ q → q < r → p q = false := by
  intro n
  induction n with
  | zero => intro s r h; exact absurd h (by simp [firstIdxAux])
  | succ n ih =>
    intro s r h
    rw [firstIdxAux] at h
    by_cases hp : p s
    · rw [if_pos hp] at h
      cases h
      exact ⟨Nat.le_refl _, by omega, hp, fun q hq1 hq2 => absurd (Nat.lt_of_le_of_lt hq1 hq2) (Nat.lt_irrefl _)⟩
    · rw [if_neg hp] at h
      obtain ⟨h1, h2, h3, h4⟩ := ih h
      refine ⟨by omega, by omega, h3, fun q hq1 hq2 => ?_⟩
      rcases Nat.eq_or_lt_of_le hq1 with rfl | hq
      · exact Bool.eq_false_iff.mpr hp
      · exact h4 q hq hq2

theorem firstIdxAux_none {p : Nat → Bool} :
    ∀ {n s}, firstIdxAux p s n = none → ∀ q, s ≤ q → q < s + n → p q = false := by
  intro n
  induction n with
  | zero => intro s _ q hq1 hq2; omega
  | succ n ih =>
    intro s h q hq1 hq2
    rw [firstIdxAux] at h
    by_cases hp : p s
    · rw [if_pos hp] at h; cases h
    · rw [if_neg hp] at h
      rcases Nat.eq_or_lt_of_le hq1 with rfl | hq
      · exact Bool.eq_false_iff.mpr hp
      · exact ih h q hq (by omega)

theorem firstIdxFrom_some {p : Nat → Bool} {s bound r : Nat}
    (h : firstIdxFrom p s bound = some r) :
    s ≤ r ∧ r < bound ∧ p r = true ∧ ∀ q, s ≤ q → q < r → p q = false := by
  obtain ⟨h1, h2, h3, h4⟩ := firstIdxAux_some h
  exact ⟨h1, by omega, h3, h4⟩

theorem firstIdxFrom_none {p : Nat → Bool} {s bound : Nat}
    (h : firstIdxFrom p s bound = none) :
    ∀ q, s ≤ q → q < bound → p q = false := by
  intro q hq1 hq2
  exact firstIdxAux_none h q hq1 (by omega)

/-- `firstIdxFrom` is characterised by being the least hit at or after `s`:
if the global-from-`s₀` search finds `r` and `s₀ ≤ s ≤ r`, the search from
`s` finds the same `r`. -/
theorem firstIdxFrom_mono {p : Nat → Bool} {s₀ s bound r : Nat}
    (h : firstIdxFrom p s₀ bound = some r) (hs : s₀ ≤ s) (hr : s ≤ r) :
    firstIdxFrom p s bound = some r := by
  obtain ⟨_, h2, h3, h4⟩ := firstIdxFrom_some h
  cases hfind : firstIdxFrom p s bound with
  | none => exact absurd h3 (by simp [firstIdxFrom_none hfind r hr h2])
  | some r' =>
    obtain ⟨g1, _, g3, g4⟩ := firstIdxFrom_some hfind
    rcases Nat.lt_trichotomy r r' with hlt | heq | hgt
    · exact absurd h3 (by simp [g4 r hr hlt])
    · rw [heq]
    · exact absurd g3 (by simp [h4 r' (Nat.le_trans hs g1) hgt])

theorem lastIdxLt_some {p : Nat → Bool} :
    ∀ {e j}, lastIdxLt p e = some j →
      j < e ∧ p j = true ∧ ∀ k, j < k → k < e → p k = false := by
  intro e
  induction e with
  | zero => intro j h; exact absurd h (by simp [lastIdxLt])
  | succ e ih =>
    intro j h
    rw [lastIdxLt] at h
    by_cases hp : p e
    · rw [if_pos hp] at h
      cases h
      exact ⟨Nat.lt_succ_self _, hp, fun k hk1 hk2 => by omega⟩
    · rw [if_neg hp] at h
      obtain ⟨h1, h2, h3⟩ := ih h
      refine ⟨by omega, h2, fun k hk1 hk2 => ?_⟩
      rcases Nat.lt_succ_iff_lt_or_eq.mp hk2 with hk | rfl
      · exact h3 k hk1 hk
      · exact Bool.eq_false_iff.mpr hp

theorem lastIdxLt_none {p : Nat → Bool} :
    ∀ {e}, lastIdxLt p e = none → ∀ k, k < e → p k = false := by
  intro e
  induction e with
  | zero => intro _ k hk; omega
  | succ e ih =>
    intro h k hk
    rw [lastIdxLt] at h
    by_cases hp : p e
    · rw [if_pos hp] at h; cases h
    · rw [if_neg hp] at h
      rcases Nat.lt_succ_iff_lt_or_eq.mp hk with hk' | rfl
      · exact ih h k hk'
      · exact Bool.eq_false_iff.mpr hp

/-! ## `SECParser.get_item_positions` — the Boundary Resolver

Embeds the pattern searches of `src/itemextraction/parser.py`,
`SECParser.get_item_positions` (lines 274–365).  The Python code works on
the raw HTML string with `re.search` / `str.rfind` only (the parsed soup
computed there is dead code); we mirror it on `List Char`. -/

/-- Match of `(?:id|name)\s*=\s*['\"]{re.escape(anchor)}['\"]`
(`re.IGNORECASE`) starting at position `i` of `cs`. -/
def matchAnchorAt (cs anchor : List Char) (i : Nat) : Bool :=
  let rest := cs.drop i
  let afterKw : Option (List Char) :=
    match eatCI ['i', 'd'] rest with
    | some r => some r
    | none => eatCI ['n', 'a', 'm', 'e'] rest
  match afterKw with
  | none => false
  | some r1 =>
    match eatChar '=' (eatWs r1) with
    | none => false
    | some r2 =>
      match eatQuote (eatWs r2) with
      | none => false
      | some r3 =>
        match eatCI anchor r3 with
        | none => false
        | some r4 => (eatQuote r4).isSome

/-- First position at or after `s` in `cs` where the anchor attribute
pattern matches (`re.search` on `html_content[s:]`, reported as an
absolute offset). -/
def findAnchorFrom (cs anchor : List Char) (s : Nat) : Option Nat :=
  firstIdxFrom (matchAnchorAt cs anchor) s cs.length

/-- `html_content.rfind('<', 0, e)`. -/
def rfindLT (cs : List Char) (e : Nat) : Option Nat :=
  lastIdxLt (fun j => cs.getD j ' ' = '<') e

/-- The recurring idiom `tag_open = html.rfind('<', 0, pos);
pos if tag_open == -1 else tag_open` of `get_item_positions`. -/
def tagBack (cs : List Char) (pos : Nat) : Nat :=
  match rfindLT cs pos with
  | some tagOpen => tagOpen
  | none => pos

/-- A TOC entry as produced by `SECParser.parse_toc`: the Python dict
`{'anchor': ..., 'title': ...}` whose `anchor` may be `None` (and whose
`title` is read back with `.get`). -/
structure TocEntry where
  anchor : Option String
  title : Option String
deriving DecidableEq, Repr

/-- Python truthiness of an optional string (`if anchor:`). -/
def strTruthy : Option String → Bool
  | none => false
  | some s => s ≠ ""

/-- Start offset of a section: the first occurrence of the anchor's
`id`/`name` attribute, backed up to the nearest preceding `<`
(parser.py lines 316–326).  `none` when the anchor is falsy or never
found (`start_pos == -1`). -/
def startPosOf (cs : List Char) (anchor : Option String) : Option Nat :=
  if strTruthy anchor then
    match findAnchorFrom cs (anchor.getD "").data 0 with
    | none => none
    | some a => some (tagBack cs a)
  else none

/-- End offset of a non-last section: the next section's anchor searched in
`html_content[start:]`, backed up to the nearest preceding `<`; document
length when the next anchor is falsy or not found (parser.py lines
330–346). -/
def endPosNext (cs : List Char) (start : Nat) (nextAnchor : Option String) : Nat :=
  if strTruthy nextAnchor then
    match findAnchorFrom cs (nextAnchor.getD "").data start with
    | none => cs.length
    | some p => tagBack cs p
  else cs.length

/-! ### The five `end_marker_patterns` (parser.py lines 16–22) -/

/-- `id\s*=\s*["\']signatures[^"\']*["\']` / `…exhibits…` at position `i`:
`id`, `=`, an opening quote, the given prefix (case-insensitively), then a
run of non-quote characters closed by a quote. -/
def matchIdPrefixAt (prefixWord : List Char) (cs : List Char) (i : Nat) : Bool :=
  match eatCI ['i', 'd'] (cs.drop i) with
  | none => false
  | some r1 =>
    match eatChar '=' (eatWs r1) with
    | none => false
    | some r2 =>
      match eatQuote (eatWs r2) with
      | none => false
      | some r3 =>
        match eatCI prefixWord r3 with
        | none => false
        | some r4 => (eatQuote (r4.dropWhile fun c => ¬(c = '\'' ∨ c = '"'))).isSome

/-- `id\s*=\s*["\'][^"\']*cover[^"\']*["\']` at position `i`: the quoted
value (up to the first closing quote) contains `cover`
case-insensitively. -/
def matchIdCoverAt (cs : List Char) (i : Nat) : Bool :=
  match eatCI ['i', 'd'] (cs.drop i) with
  | none => false
  | some r1 =>
    match eatChar '=' (eatWs r1) with
    | none => false
    | some r2 =>
      match eatQuote (eatWs r2) with
      | none => false
      | some r3 =>
        let run := r3.takeWhile fun c => ¬(c = '\'' ∨ c = '"')
        (eatQuote (r3.drop run.length)).isSome &&
          containsSubCI ['c', 'o', 'v', 'e', 'r'] run

/-- `>SIGNATURES<` (case-insensitive) at position `i`. -/
def matchSigLiteralAt (cs : List Char) (i : Nat) : Bool :=
  match eatChar '>' (cs.drop i) with
  | none => false
  | some r1 =>
    match eatCI ['s', 'i', 'g', 'n', 'a', 't', 'u', 'r', 'e', 's'] r1 with
    | none => false
    | some r2 => (eatChar '<' r2).isSome

/-- Tail of `>\s*SIGNA\s*<.*?>\s*TURES\s*<`: after the first `<`, a run of
non-newline characters (`.` does not cross a newline), a `>`, then
`\s*TURES\s*<`. -/
def matchTuresTail : List Char → Bool
  | [] => false
  | c :: cs =>
    (c = '>' &&
      (match eatCI ['t', 'u', 'r', 'e', 's'] (eatWs cs) with
       | none => false
       | some r => (eatChar '<' (eatWs r)).isSome)) ||
    (c ≠ '\n' && matchTuresTail cs)

/-- `>\s*SIGNA\s*<.*?>\s*TURES\s*<` (case-insensitive) at position `i`. -/
def matchSigSplitAt (cs : List Char) (i : Nat) : Bool :=
  match eatChar '>' (cs.drop i) with
  | none => false
  | some r1 =>
    match eatCI ['s', 'i', 'g', 'n', 'a'] (eatWs r1) with
    | none => false
    | some r2 =>
      match eatChar '<' (eatWs r2) with
      | none => false
      | some r3 => matchTuresTail r3

/-- The pre-compiled `end_marker_patterns` list, in source order. -/
def endMarkerMatchers : List (List Char → Nat → Bool) :=
  [ matchIdPrefixAt ['s', 'i', 'g', 'n', 'a', 't', 'u', 'r', 'e', 's']
  , matchIdPrefixAt ['e', 'x', 'h', 'i', 'b', 'i', 't', 's']
  , matchIdCoverAt
  , matchSigLiteralAt
  , matchSigSplitAt ]

/-- The `for compiled_pattern in self.end_marker_patterns` loop: the first
pattern in list order that matches anywhere at or after `start`, reported
at its earliest match position. -/
def firstEndMarker (cs : List Char) (start : Nat) :
    List (List Char → Nat → Bool) → Option Nat
  | [] => none
  | m :: ms =>
    match firstIdxFrom (m cs) start cs.length with
    | some p => some p
    | none => firstEndMarker cs start ms

/-- End offset of the last section (parser.py lines 348–361). -/
def endPosLast (cs : List Char) (start : Nat) : Nat :=
  match firstEndMarker cs start endMarkerMatchers with
  | some p => tagBack cs p
  | none => cs.length

/-! ### Sorting the item keys (parser.py lines 289–299) -/

/-- `item_sort_key`: `re.match(r'(\d+)([A-Z]?)', item)` gives
`(int(digits), letter)`, else `(0, item)`. -/
def itemSortKey (item : String) : Nat × String :=
  let digits := item.data.takeWhile isDigitC
  if digits.isEmpty then (0, item)
  else
    let num := digits.foldl (fun acc c => 10 * acc + (c.toNat - '0'.toNat)) 0
    let rest := item.data.drop digits.length
    let letter :=
      match rest with
      | c :: _ => if 'A' ≤ c ∧ c ≤ 'Z' then String.mk [c] else ""
      | [] => ""
    (num, letter)

/-- Lexicographic comparison of char lists by code point (Python `str`
comparison). -/
def charsLE : List Char → List Char → Bool
  | [], _ => true
  | _ :: _, [] => false
  | a :: as, b :: bs =>
    if a.toNat < b.toNat then true
    else if a.toNat = b.toNat then charsLE as bs
    else false

/-- Python tuple comparison on sort keys. -/
def keyLE (a b : Nat × String) : Bool :=
  a.1 < b.1 || (a.1 = b.1 && charsLE a.2.data b.2.data)

/-- Stable insertion into a key-sorted list. -/
def insertSorted (x : String × TocEntry) :
    List (String × TocEntry) → List (String × TocEntry)
  | [] => [x]
  | y :: ys =>
    if keyLE (itemSortKey x.1) (itemSortKey y.1) then x :: y :: ys
    else y :: insertSorted x ys

/-- `sorted(toc_items.keys(), key=item_sort_key)` (paired with the entries;
Python's sort is stable). -/
def sortItems : List (String × TocEntry) → List (String × TocEntry)
  | [] => []
  | x :: xs => insertSorted x (sortItems xs)

/-! ### The main loop of `get_item_positions` -/

/-- One pass over the sorted items: each resolvable section gets
`(start, end)` where `end` peeks at the next sorted item (or the end
markers for the last one). -/
def positionsLoop (cs : List Char) :
    List (String × TocEntry) → List (String × Nat × Nat)
  | [] => []
  | (item, entry) :: rest =>
    match startPosOf cs entry.anchor with
    | none => positionsLoop cs rest
    | some s =>
      let e :=
        match rest with
        | [] => endPosLast cs s
        | (_, nextEntry) :: _ => endPosNext cs s nextEntry.anchor
      (item, s, e) :: positionsLoop cs rest

/-- `SECParser.get_item_positions`: mapping from item number to
`(start_pos, end_pos)`, in sorted processing order. -/
def get_item_positions (html : String) (tocItems : List (String × TocEntry)) :
    List (String × Nat × Nat) :=
  positionsLoop html.data (sortItems tocItems)

/-! ### Structural facts about the boundary-resolver searches -/

theorem getD_of_drop_cons :
    ∀ {p : Nat} {cs : List Char} {c : Char} {t : List Char},
      cs.drop p = c :: t → cs.getD p ' ' = c := by
  intro p
  induction p with
  | zero => intro cs c t h; rw [List.drop_zero] at h; subst h; rfl
  | succ p ih =>
    intro cs c t h
    cases cs with
    | nil => simp at h
    | cons x xs => exact ih h

theorem lt_length_of_drop_cons {p : Nat} {cs : List Char} {c : Char}
    {t : List Char} (h : cs.drop p = c :: t) : p < cs.length := by
  have := congrArg List.length h
  rw [List.length_drop] at this
  simp at this
  omega

theorem eatCI_cons {q : Char} {qs cs r : List Char} (h : eatCI (q :: qs) cs = some r) :
    ∃ c t, cs = c :: t ∧ pyLower c = pyLower q := by
  cases cs with
  | nil => exact absurd h (by simp [eatCI])
  | cons c t =>
    rw [eatCI] at h
    by_cases hc : pyLower c = pyLower q
    · exact ⟨c, t, rfl, hc⟩
    · rw [if_neg hc] at h; cases h

theorem eatChar_cons {ch : Char} {cs r : List Char} (h : eatChar ch cs = some r) :
    ∃ t, cs = ch :: t := by
  cases cs with
  | nil => exact absurd h (by simp [eatChar])
  | cons c t =>
    rw [eatChar] at h
    by_cases hc : c = ch
    · exact ⟨t, by rw [hc]⟩
    · rw [if_neg hc] at h; cases h

/-- A match of the anchor-attribute pattern starts with `i` or `n` (from
`id` / `name`); in particular it starts inside the document and not on a
`<`. -/
theorem matchAnchorAt_head {cs anchor : List Char} {p : Nat}
    (h : matchAnchorAt cs anchor p = true) :
    p < cs.length ∧ cs.getD p ' ' ≠ '<' := by
  rw [matchAnchorAt] at h
  rcases hkw : (match eatCI ['i', 'd'] (cs.drop p) with
      | some r => some r
      | none => eatCI ['n', 'a', 'm', 'e'] (cs.drop p)) with _ | r1
  · rw [hkw] at h; simp at h
  · have hfirst : ∃ c t, cs.drop p = c :: t ∧ (pyLower c = 'i' ∨ pyLower c = 'n') := by
      rcases hid : eatCI ['i', 'd'] (cs.drop p) with _ | r
      · rw [hid] at hkw
        obtain ⟨c, t, hct, hc⟩ := eatCI_cons hkw
        exact ⟨c, t, hct, Or.inr (by simpa [pyLower] using hc)⟩
      · obtain ⟨c, t, hct, hc⟩ := eatCI_cons hid
        exact ⟨c, t, hct, Or.inl (by simpa [pyLower] using hc)⟩
    obtain ⟨c, t, hct, hc⟩ := hfirst
    refine ⟨lt_length_of_drop_cons hct, ?_⟩
    rw [getD_of_drop_cons hct]
    intro hceq
    subst hceq
    simp [pyLower] at hc

/-- Every end-marker pattern match starts with `i` (from `id`) or `>`; in
particular not on a `<`. -/
theorem endMarker_head {cs : List Char} {p : Nat}
    {m : List Char → Nat → Bool} (hm : m ∈ endMarkerMatchers)
    (h : m cs p = true) : p < cs.length ∧ cs.getD p ' ' ≠ '<' := by
  have hfirst : ∃ c t, cs.drop p = c :: t ∧ (pyLower c = 'i' ∨ c = '>') := by
    simp only [endMarkerMatchers, List.mem_cons, List.not_mem_nil, or_false] at hm
    rcases hm with rfl | rfl | rfl | rfl | rfl
    · rw [matchIdPrefixAt] at h
      rcases hid : eatCI ['i', 'd'] (cs.drop p) with _ | r
      · rw [hid] at h; simp at h
      · obtain ⟨c, t, hct, hc⟩ := eatCI_cons hid
        exact ⟨c, t, hct, Or.inl (by simpa [pyLower] using hc)⟩
    · rw [matchIdPrefixAt] at h
      rcases hid : eatCI ['i', 'd'] (cs.drop p) with _ | r
      · rw [hid] at h; simp at h
      · obtain ⟨c, t, hct, hc⟩ := eatCI_cons hid
        exact ⟨c, t, hct, Or.inl (by simpa [pyLower] using hc)⟩
    · rw [matchIdCoverAt] at h
      rcases hid : eatCI ['i', 'd'] (cs.drop p) with _ | r
      · rw [hid] at h; simp at h
      · obtain ⟨c, t, hct, hc⟩ := eatCI_cons hid
        exact ⟨c, t, hct, Or.inl (by simpa [pyLower] using hc)⟩
    · rw [matchSigLiteralAt] at h
      rcases hgt : eatChar '>' (cs.drop p) with _ | r
      · rw [hgt] at h; simp at h
      · obtain ⟨t, hct⟩ := eatChar_cons hgt
        exact ⟨'>', t, hct, Or.inr rfl⟩
    · rw [matchSigSplitAt] at h
      rcases hgt : eatChar '>' (cs.drop p) with _ | r
      · rw [hgt] at h; simp at h
      · obtain ⟨t, hct⟩ := eatChar_cons hgt
        exact ⟨'>', t, hct, Or.inr rfl⟩
  obtain ⟨c, t, hct, hc⟩ := hfirst
  refine ⟨lt_length_of_drop_cons hct, ?_⟩
  rw [getD_of_drop_cons hct]
  intro hceq
  subst hceq
  rcases hc with hc | hc
  · simp [pyLower] at hc
  · cases hc

/-- A start offset produced by `startPosOf` either sits on a `<`, or is the
anchor position itself with no `<` anywhere before it — and it is inside
the document. -/
theorem startPosOf_ok {cs : List Char} {anchor : Option String} {s : Nat}
    (h : startPosOf cs anchor = some s) :
    s < cs.length ∧
      (cs.getD s ' ' = '<' ∨ ∀ j, j < s → cs.getD j ' ' ≠ '<') := by
  rw [startPosOf] at h
  by_cases ht : strTruthy anchor
  · rw [if_pos ht] at h
    rcases hf : findAnchorFrom cs (anchor.getD "").data 0 with _ | a
    · rw [hf] at h; cases h
    · rw [hf] at h
      obtain ⟨_, ha2, ha3, _⟩ := firstIdxFrom_some hf
      have halen : a < cs.length := ha2
      cases h
      rw [tagBack]
      rcases hr : rfindLT cs a with _ | tagOpen
      · refine ⟨halen, Or.inr fun j hj hlt => ?_⟩
        have hj' : j < a := hj
        have := lastIdxLt_none hr j hj'
        exact absurd hlt (of_decide_eq_false this)
      · obtain ⟨hr1, hr2, _⟩ := lastIdxLt_some hr
        exact ⟨Nat.lt_trans hr1 halen, Or.inl (of_decide_eq_true hr2)⟩
  · rw [if_neg ht] at h; cases h

/-- Backing up to the enclosing tag never crosses a well-formed start
offset: if `s` sits on a `<` (or nothing before `s` is a `<`), `s ≤ p`,
and position `p` does not hold a `<`, then `tagBack cs p` is at least
`s`. -/
theorem tagBack_ge {cs : List Char} {s p : Nat}
    (hok : cs.getD s ' ' = '<' ∨ ∀ j, j < s → cs.getD j ' ' ≠ '<')
    (hsp : s ≤ p) (hp : cs.getD p ' ' ≠ '<') : s ≤ tagBack cs p := by
  rw [tagBack]
  rcases hr : rfindLT cs p with _ | tagOpen
  · exact hsp
  · obtain ⟨hr1, hr2, hr3⟩ := lastIdxLt_some hr
    show s ≤ tagOpen
    by_contra hcon
    push_neg at hcon
    rcases hok with hlt | hnone
    · have hsp' : s < p := Nat.lt_of_le_of_ne hsp fun he => hp (he ▸ hlt)
      exact absurd hlt (of_decide_eq_false (hr3 s hcon hsp'))
    · exact hnone tagOpen hcon (of_decide_eq_true hr2)

/-- Every end offset computed for a non-last item is at least the start. -/
theorem endPosNext_ge {cs : List Char} {s : Nat} {anch : Option String}
    (hs : s < cs.length)
    (hok : cs.getD s ' ' = '<' ∨ ∀ j, j < s → cs.getD j ' ' ≠ '<') :
    s ≤ endPosNext cs s anch := by
  rw [endPosNext]
  by_cases ht : strTruthy anch
  · rw [if_pos ht]
    rcases hf : findAnchorFrom cs (anch.getD "").data s with _ | p
    · exact Nat.le_of_lt hs
    · obtain ⟨hp1, _, hp3, _⟩ := firstIdxFrom_some hf
      exact tagBack_ge hok hp1 (matchAnchorAt_head hp3).2
  · rw [if_neg ht]
    exact Nat.le_of_lt hs

theorem firstEndMarker_spec {cs : List Char} {start p : Nat} :
    ∀ {ms : List (List Char → Nat → Bool)},
      firstEndMarker cs start ms = some p →
      ∃ m ∈ ms, start ≤ p ∧ m cs p = true := by
  intro ms
  induction ms with
  | nil => intro h; exact absurd h (by simp [firstEndMarker])
  | cons m ms ih =>
    intro h
    rw [firstEndMarker] at h
    rcases hf : firstIdxFrom (m cs) start cs.length with _ | q
    · rw [hf] at h
      obtain ⟨m', hmem, hm'⟩ := ih h
      exact ⟨m', List.mem_cons_of_mem m hmem, hm'⟩
    · rw [hf] at h
      cases h
      obtain ⟨h1, _, h3, _⟩ := firstIdxFrom_some hf
      exact ⟨m, List.mem_cons_self m ms, h1, h3⟩

/-- Every end offset computed for the last item is at least the start. -/
theorem endPosLast_ge {cs : List Char} {s : Nat}
    (hs : s < cs.length)
    (hok : cs.getD s ' ' = '<' ∨ ∀ j, j < s → cs.getD j ' ' ≠ '<') :
    s ≤ endPosLast cs s := by
  rw [endPosLast]
  rcases hf : firstEndMarker cs s endMarkerMatchers with _ | p
  · exact Nat.le_of_lt hs
  · obtain ⟨m, hmem, hp1, hp2⟩ := firstEndMarker_spec hf
    exact tagBack_ge hok hp1 (endMarker_head hmem hp2).2

/-- Core invariant of the positions loop: starts never exceed ends. -/
theorem positionsLoop_start_le_end {cs : List Char} :
    ∀ {l : List (String × TocEntry)} {item : String} {s e : Nat},
      (item, s, e) ∈ positionsLoop cs l → s ≤ e := by
  intro l
  induction l with
  | nil => intro item s e h; exact absurd h (by simp [positionsLoop])
  | cons hd rest ih =>
    intro item s e h
    rw [positionsLoop] at h
    rcases hsp : startPosOf cs hd.2.anchor with _ | s'
    · rw [hsp] at h
      exact ih h
    · rw [hsp] at h
      rcases List.mem_cons.mp h with heq | hmem
      · obtain ⟨hs', hok⟩ := startPosOf_ok hsp
        cases rest with
        | nil =>
          simp only [Prod.mk.injEq] at heq
          obtain ⟨_, h2, h3⟩ := heq
          subst h2; subst h3
          exact endPosLast_ge hs' hok
        | cons nxt rest' =>
          simp only [Prod.mk.injEq] at heq
          obtain ⟨_, h2, h3⟩ := heq
          subst h2; subst h3
          exact endPosNext_ge hs' hok
      · exact ih hmem

/-! ### Locating a single item's entry inside the positions mapping -/

theorem lookup_eq_none_of_not_mem {β : Type} {a : String} :
    ∀ {l : List (String × β)}, a ∉ l.map Prod.fst → List.lookup a l = none := by
  intro l
  induction l with
  | nil => intro _; rfl
  | cons hd tl ih =>
    intro h
    simp only [List.map_cons, List.mem_cons] at h
    push_neg at h
    rw [List.lookup]
    cases hbe : (a == hd.fst) with
    | true => exact absurd (by simpa using hbe) h.1
    | false => exact ih h.2

theorem lookup_append_of_left_none {β : Type} {a : String} :
    ∀ {l1 l2 : List (String × β)}, List.lookup a l1 = none →
      List.lookup a (l1 ++ l2) = List.lookup a l2 := by
  intro l1
  induction l1 with
  | nil => intro l2 _; rfl
  | cons hd tl ih =>
    intro l2 h
    rw [List.lookup] at h
    rw [List.cons_append, List.lookup]
    cases hbe : (a == hd.fst) with
    | true => rw [hbe] at h; cases h
    | false =>
      rw [hbe] at h
      exact ih h

theorem positionsLoop_keys {cs : List Char} :
    ∀ {l : List (String × TocEntry)} {x : String × Nat × Nat},
      x ∈ positionsLoop cs l → x.1 ∈ l.map Prod.fst := by
  intro l
  induction l with
  | nil => intro x h; exact absurd h (by simp [positionsLoop])
  | cons hd tl ih =>
    intro x h
    rw [positionsLoop] at h
    rcases hsp : startPosOf cs hd.2.anchor with _ | s
    · rw [hsp] at h
      exact List.mem_cons_of_mem _ (ih h)
    · rw [hsp] at h
      rcases List.mem_cons.mp h with heq | hmem
      · rw [heq]; exact List.mem_cons_self _ _
      · exact List.mem_cons_of_mem _ (ih hmem)

/-- Processing a prefix of the sorted list contributes only entries keyed
in that prefix, and leaves the processing of the (non-empty) remainder
untouched. -/
theorem positionsLoop_append {cs : List Char} :
    ∀ (l1 l2 : List (String × TocEntry)), l2 ≠ [] →
      ∃ entries, positionsLoop cs (l1 ++ l2) = entries ++ positionsLoop cs l2 ∧
        ∀ x ∈ entries, Prod.fst x ∈ l1.map Prod.fst := by
  intro l1
  induction l1 with
  | nil => intro l2 _; exact ⟨[], rfl, by simp⟩
  | cons hd t1 ih =>
    intro l2 hl2
    obtain ⟨entries, heq, hkeys⟩ := ih l2 hl2
    rw [List.cons_append, positionsLoop]
    rcases hsp : startPosOf cs hd.2.anchor with _ | s
    · exact ⟨entries, heq, fun x hx => List.mem_cons_of_mem _ (hkeys x hx)⟩
    · cases hrest : t1 ++ l2 with
      | nil => exact absurd (List.append_eq_nil.mp hrest).2 hl2
      | cons nxt t' =>
        refine ⟨(hd.1, s, endPosNext cs s nxt.2.anchor) :: entries, ?_, ?_⟩
        · rw [hrest] at heq
          show (hd.1, s, endPosNext cs s nxt.2.anchor) :: positionsLoop cs (nxt :: t') = _
          rw [heq, List.cons_append]
        · intro x hx
          rcases List.mem_cons.mp hx with rfl | hx'
          · exact List.mem_cons_self _ _
          · exact List.mem_cons_of_mem _ (hkeys x hx')

/-- With distinct keys, looking an item of the remainder up in the full
positions mapping is the same as looking it up in the remainder's own
processing. -/
theorem lookup_positionsLoop_skip {cs : List Char} {pre rest : List (String × TocEntry)}
    {a : String} (hrest : rest ≠ [])
    (hnotpre : a ∉ pre.map Prod.fst) :
    List.lookup a (positionsLoop cs (pre ++ rest)) =
      List.lookup a (positionsLoop cs rest) := by
  obtain ⟨entries, heq, hkeys⟩ := positionsLoop_append pre rest hrest
  rw [heq]
  refine lookup_append_of_left_none (lookup_eq_none_of_not_mem ?_)
  intro hmem
  obtain ⟨x, hx, hx1⟩ := List.mem_map.mp hmem
  exact hnotpre (hx1 ▸ hkeys x hx)

/-- Searching for the anchor in `html[s:]` finds the same occurrence as the
global search whenever the global hit lies at or after `s`. -/
theorem findAnchorFrom_mono {cs anchor : List Char} {s p : Nat}
    (h : findAnchorFrom cs anchor 0 = some p) (hs : s ≤ p) :
    findAnchorFrom cs anchor s = some p :=
  firstIdxFrom_mono h (Nat.zero_le s) hs

theorem lookup_cons_self {β : Type} (a : String) (v : β) (t : List (String × β)) :
    List.lookup a ((a, v) :: t) = some v := by
  rw [List.lookup]
  simp

theorem lookup_cons_ne {β : Type} {a k : String} (v : β) (t : List (String × β))
    (h : a ≠ k) : List.lookup a ((k, v) :: t) = List.lookup a t := by
  rw [List.lookup]
  cases hbe : (a == k) with
  | true => exact absurd (by simpa using hbe) h
  | false => rfl

/-! ## Concrete documents used to test the Boundary Resolver claims -/

/-- A two-item TOC mapping, anchors `a` and `b`. -/
def exToc : List (String × TocEntry) :=
  [("1", ⟨some "a", some "Item 1"⟩), ("2", ⟨some "b", some "Item 2"⟩)]

/-- Anchors appear in document order `b`, then `a` (out of sorted order). -/
def revHtml : String := "<p id=\"b\"></p><p id=\"a\"></p>"

/-- Anchors appear in sorted order `a`, then `b`. -/
def fwdHtml : String := "<p id=\"a\"></p><p id=\"b\"></p>"

/-- Both anchors live in the same tag. -/
def overlapHtml : String := "<a id=\"x\" name=\"y\">"

def overlapToc : List (String × TocEntry) :=
  [("1", ⟨some "x", some "Item 1"⟩), ("2", ⟨some "y", some "Item 2"⟩)]

/-- A signatures end marker carried by an `id` attribute. -/
def sigIdHtml : String := "<p id=\"a\"></p><p id=\"b\"></p><p id=\"signatures\"></p>"

/-- A signatures end marker carried by a `name` attribute only. -/
def sigNameHtml : String := "<p id=\"a\"></p><p id=\"b\"></p><p name=\"signatures\"></p>"

/-! ## Claim C1 — contiguity of adjacent section ranges -/

/-- C1, counterexample.  In `revHtml` the two anchors occur out of sorted
order; both sections are located by literal search (both appear in the
returned mapping), the sections `1` and `2` are adjacent in sorted order,
yet `range[1].end = 28 ≠ 0 = range[2].start`.  The claim as stated is
false. -/
theorem claim_C1_counterexample :
    List.lookup "1" (get_item_positions revHtml exToc) = some (14, 28) ∧
    List.lookup "2" (get_item_positions revHtml exToc) = some (0, 28) ∧
    (28 : Nat) ≠ 0 :=
  ⟨by decide, by decide, by decide⟩

/-- C1, amended.  For adjacent sections in sorted order that are both
located by literal search, `range[i].end = range[i+1].start` holds
whenever the first occurrence of section `i+1`'s anchor pattern in the
whole document lies at or after section `i`'s start offset (as it does in
well-formed filings whose anchors occur in sorted order); the code
searches for the end anchor only in the remainder `html[start:]`, so an
anchor occurring before the current start breaks contiguity. -/
theorem claim_C1_amended
    (html : String) (toc pre post : List (String × TocEntry))
    (a b : String) (ea eb : TocEntry) (s1 e1 s2 e2 p : Nat)
    (hnd : ((sortItems toc).map Prod.fst).Nodup)
    (hdec : sortItems toc = pre ++ (a, ea) :: (b, eb) :: post)
    (hla : List.lookup a (get_item_positions html toc) = some (s1, e1))
    (hlb : List.lookup b (get_item_positions html toc) = some (s2, e2))
    (hglob : findAnchorFrom html.data (eb.anchor.getD "").data 0 = some p)
    (hord : s1 ≤ p) :
    e1 = s2 := by
  set cs := html.data with hcs
  rw [get_item_positions, hdec] at hla hlb
  rw [hdec] at hnd
  simp only [List.map_append, List.map_cons] at hnd
  obtain ⟨-, hndr, hdisj⟩ := List.nodup_append.mp hnd
  have hka : a ∉ pre.map Prod.fst := fun hmem => hdisj hmem (List.mem_cons_self _ _)
  have hkb : b ∉ pre.map Prod.fst := fun hmem =>
    hdisj hmem (List.mem_cons_of_mem _ (List.mem_cons_self _ _))
  obtain ⟨hanotin, hndr2⟩ := List.nodup_cons.mp hndr
  obtain ⟨hbnotin, -⟩ := List.nodup_cons.mp hndr2
  have hab : a ≠ b := fun he => hanotin (he ▸ List.mem_cons_self _ _)
  rw [lookup_positionsLoop_skip (List.cons_ne_nil _ _) hka] at hla
  rw [lookup_positionsLoop_skip (List.cons_ne_nil _ _) hkb] at hlb
  rw [positionsLoop] at hla hlb
  rcases hsa : startPosOf cs ea.anchor with _ | s1'
  · rw [hsa] at hla
    have : List.lookup a (positionsLoop cs ((b, eb) :: post)) = none := by
      refine lookup_eq_none_of_not_mem fun hmem => ?_
      obtain ⟨x, hx, hx1⟩ := List.mem_map.mp hmem
      exact hanotin (hx1 ▸ positionsLoop_keys hx)
    rw [this] at hla
    cases hla
  · rw [hsa] at hla hlb
    have hla2 : List.lookup a ((a, s1', endPosNext cs s1' eb.anchor) ::
        positionsLoop cs ((b, eb) :: post)) = some (s1, e1) := hla
    have hlb2 : List.lookup b ((a, s1', endPosNext cs s1' eb.anchor) ::
        positionsLoop cs ((b, eb) :: post)) = some (s2, e2) := hlb
    rw [lookup_cons_self] at hla2
    injection hla2 with hla'
    obtain ⟨hs1, he1⟩ : s1' = s1 ∧ endPosNext cs s1' eb.anchor = e1 := by
      constructor <;> [exact congrArg Prod.fst hla'; exact congrArg Prod.snd hla']
    rw [lookup_cons_ne _ _ (Ne.symm hab)] at hlb2
    rw [positionsLoop] at hlb2
    rcases hsb : startPosOf cs eb.anchor with _ | s2'
    · rw [hsb] at hlb2
      have : List.lookup b (positionsLoop cs post) = none := by
        refine lookup_eq_none_of_not_mem fun hmem => ?_
        obtain ⟨x, hx, hx1⟩ := List.mem_map.mp hmem
        exact hbnotin (hx1 ▸ positionsLoop_keys hx)
      rw [this] at hlb2
      cases hlb2
    · rw [hsb] at hlb2
      have hs2 : s2' = s2 := by
        cases post with
        | nil =>
          have hlb3 : List.lookup b ((b, s2', endPosLast cs s2') ::
              positionsLoop cs []) = some (s2, e2) := hlb2
          rw [lookup_cons_self] at hlb3
          exact congrArg Prod.fst (Option.some.inj hlb3)
        | cons nxt rest' =>
          have hlb3 : List.lookup b ((b, s2', endPosNext cs s2' nxt.2.anchor) ::
              positionsLoop cs (nxt :: rest')) = some (s2, e2) := hlb2
          rw [lookup_cons_self] at hlb3
          exact congrArg Prod.fst (Option.some.inj hlb3)
      rw [startPosOf] at hsb
      by_cases ht : strTruthy eb.anchor
      · rw [if_pos ht, hglob] at hsb
        have hsb2 : some (tagBack cs p) = some s2' := hsb
        have hsb' : tagBack cs p = s2' := Option.some.inj hsb2
        rw [← he1, endPosNext, if_pos ht,
          findAnchorFrom_mono hglob (by omega : s1' ≤ p), ← hs2, ← hsb']
      · rw [if_neg ht] at hsb
        cases hsb

/-- C1, witness for the amended theorem: with anchors in document order in
`fwdHtml`, section 1's end 14 coincides with section 2's start 14. -/
theorem claim_C1_witness :
    List.lookup "1" (get_item_positions fwdHtml exToc) = some (0, 14) ∧
    List.lookup "2" (get_item_positions fwdHtml exToc) = some (14, 28) ∧
    (14 : Nat) = 14 :=
  ⟨by decide, by decide,
    claim_C1_amended fwdHtml exToc [] [] "1" "2"
      ⟨some "a", some "Item 1"⟩ ⟨some "b", some "Item 2"⟩ 0 14 14 28 17
      (by decide) (by decide) (by decide) (by decide) (by decide) (by decide)⟩

/-! ## Claim C3 — section ranges satisfy `0 ≤ start` and `end > start` -/

/-- C3, counterexample.  In `overlapHtml` the two anchors sit in the same
tag; section `1` receives the range `(0, 0)`, so `end > start` fails (the
code can produce an empty, not strictly positive, range). -/
theorem claim_C3_counterexample :
    ("1", 0, 0) ∈ get_item_positions overlapHtml overlapToc ∧ ¬((0 : Nat) < 0) :=
  ⟨by decide, by decide⟩

/-- C3, amended.  Every range in the mapping returned by
`get_item_positions` satisfies `start ≥ 0` (automatic: offsets are
constructed from search hits and `rfind` results, never negative) and
`end ≥ start` — but not strictly: `end = start` is possible. -/
theorem claim_C3_amended (html : String) (toc : List (String × TocEntry))
    (item : String) (s e : Nat)
    (h : (item, s, e) ∈ get_item_positions html toc) : s ≤ e :=
  positionsLoop_start_le_end h

/-- C3, witness: a concrete mapping entry with `start ≤ end`. -/
theorem claim_C3_witness :
    ("1", 0, 14) ∈ get_item_positions fwdHtml exToc ∧ (0 : Nat) ≤ 14 :=
  ⟨by decide, claim_C3_amended fwdHtml exToc "1" 0 14 (by decide)⟩

/-! ## Claim C6 — the last section's end marker -/

/-- The end-of-filing marker in the *claim's* words (refinement comparison
only, deliberately following the specification and not the code): an `id`
**or `name`** attribute whose quoted value **contains** `signatures`,
`exhibits` or `cover`, or a literal `>SIGNATURES<` token. -/
def specEndMarkerAt (cs : List Char) (i : Nat) : Bool :=
  (match (match eatCI ['i', 'd'] (cs.drop i) with
          | some r => some r
          | none => eatCI ['n', 'a', 'm', 'e'] (cs.drop i)) with
   | none => false
   | some r1 =>
     match eatChar '=' (eatWs r1) with
     | none => false
     | some r2 =>
       match eatQuote (eatWs r2) with
       | none => false
       | some r3 =>
         let run := r3.takeWhile fun c => ¬(c = '\'' ∨ c = '"')
         (eatQuote (r3.drop run.length)).isSome &&
           (containsSubCI ['s', 'i', 'g', 'n', 'a', 't', 'u', 'r', 'e', 's'] run ||
            containsSubCI ['e', 'x', 'h', 'i', 'b', 'i', 't', 's'] run ||
            containsSubCI ['c', 'o', 'v', 'e', 'r'] run)) ||
  matchSigLiteralAt cs i

/-- The last section's end offset in the claim's words: enclosing-tag
start of the earliest marker found after the section start, else document
length. -/
def claimEndOfLast (cs : List Char) (start : Nat) : Nat :=
  match firstIdxFrom (specEndMarkerAt cs) start cs.length with
  | some p => tagBack cs p
  | none => cs.length

/-- C6, counterexample.  A `name="signatures"` attribute after the last
section's start is an end-of-filing marker per the claim (claimed end
offset 28, the enclosing-tag start), but the code's patterns only ever
look at `id=` attributes, so it finds no marker and uses the document
length 53. -/
theorem claim_C6_counterexample :
    List.lookup "2" (get_item_positions sigNameHtml exToc) = some (14, 53) ∧
    claimEndOfLast sigNameHtml.data 14 = 28 ∧ (53 : Nat) ≠ 28 :=
  ⟨by decide, by decide, by decide⟩

/-- C6, amended.  For the last section in sorted order the end offset is
computed by `endPosLast`: the five pre-compiled marker patterns are tried
in fixed priority order (`id` values *starting with* `signatures`, then
`id` values starting with `exhibits`, then `id` values containing `cover`,
then a literal `>SIGNATURES<`, then a split `>SIGNA<…>TURES<` pair) — the
first *pattern* that matches anywhere after the section start supplies the
earliest match position, backed up to the enclosing tag's `<`; `name`
attributes are never consulted; if no pattern matches, the end offset is
the document length. -/
theorem claim_C6_amended
    (html : String) (toc pre : List (String × TocEntry))
    (a : String) (ea : TocEntry) (s e : Nat)
    (hnd : ((sortItems toc).map Prod.fst).Nodup)
    (hdec : sortItems toc = pre ++ [(a, ea)])
    (hla : List.lookup a (get_item_positions html toc) = some (s, e)) :
    e = endPosLast html.data s := by
  set cs := html.data with hcs
  rw [get_item_positions, hdec] at hla
  rw [hdec] at hnd
  simp only [List.map_append, List.map_cons, List.map_nil] at hnd
  obtain ⟨-, -, hdisj⟩ := List.nodup_append.mp hnd
  have hka : a ∉ pre.map Prod.fst := fun hmem => hdisj hmem (List.mem_cons_self _ _)
  rw [lookup_positionsLoop_skip (List.cons_ne_nil _ _) hka] at hla
  rw [positionsLoop] at hla
  rcases hsa : startPosOf cs ea.anchor with _ | s'
  · rw [hsa] at hla
    cases hla
  · rw [hsa, lookup_cons_self] at hla
    injection hla with hla'
    have hs : s' = s := congrArg Prod.fst hla'
    have he : endPosLast cs s' = e := congrArg Prod.snd hla'
    rw [← he, hs]

/-- C6, witness: with an `id="signatures"` attribute present, the end
offset of the last section is the enclosing-tag start of that marker. -/
theorem claim_C6_witness :
    List.lookup "2" (get_item_positions sigIdHtml exToc) = some (14, 28) ∧
    (28 : Nat) = endPosLast sigIdHtml.data 14 :=
  ⟨by decide,
    claim_C6_amended sigIdHtml exToc [("1", ⟨some "a", some "Item 1"⟩)]
      "2" ⟨some "b", some "Item 2"⟩ 14 28 (by decide) (by decide) (by decide)⟩

/-! ## The parsed-markup tree

BeautifulSoup's parsing is external to the repository; the tree-level
components (`structure_extractor.py`, the TOC locator of `parser.py`) are
embedded over the parsed document: a forest of nodes, each either a text
run or an element with a tag name, an optional source line (BeautifulSoup's
`sourceline`), attributes and children. -/

inductive HNode where
  | text : String → HNode
  | elem : String → Option Nat → List (String × String) → List HNode → HNode

/-- Attribute lookup, `tag.get(key)`. -/
def getAttr (key : String) : HNode → Option String
  | .text _ => none
  | .elem _ _ attrs _ => attrs.lookup key

/-- Python truthiness of `tag.get(key)`. -/
def attrTruthy (key : String) (n : HNode) : Bool := strTruthy (getAttr key n)

def directChildren : HNode → List HNode
  | .text _ => []
  | .elem _ _ _ cs => cs

def tagName : HNode → Option String
  | .text _ => none
  | .elem t _ _ _ => some t

mutual
/-- `tag.get_text()` — concatenation of all descendant text runs in
document order (BeautifulSoup's default empty separator). -/
def getTextN : HNode → String
  | .text s => s
  | .elem _ _ _ cs => getTextL cs

def getTextL : List HNode → String
  | [] => ""
  | c :: cs => getTextN c ++ getTextL cs
end

mutual
/-- `soup.find_all(filter)` — matching elements in document order
(pre-order: parents before their descendants). -/
def findAllN (p : HNode → Bool) : HNode → List HNode
  | .text _ => []
  | .elem t l attrs cs =>
    (if p (.elem t l attrs cs) then [HNode.elem t l attrs cs] else []) ++ findAllL p cs

def findAllL (p : HNode → Bool) : List HNode → List HNode
  | [] => []
  | n :: ns => findAllN p n ++ findAllL p ns
end

mutual
/-- `tag.decompose()` applied to every element with a tag in `names`
(`for tag in soup(['script', 'style']): tag.decompose()`). -/
def stripTagsN (names : List String) : HNode → List HNode
  | .text s => [.text s]
  | .elem t l attrs cs =>
    if names.contains t then [] else [.elem t l attrs (stripTagsL names cs)]

def stripTagsL (names : List String) : List HNode → List HNode
  | [] => []
  | n :: ns => stripTagsN names n ++ stripTagsL names ns
end

/-! ## `StructureExtractor` (src/structure_extractor.py) -/

/-- The characters removed by `_clean_text`'s artifact pass
(`[\\xa0\\u200b\\u200c\\u200d\\ufeff]`). -/
def isArtifactChar (c : Char) : Bool :=
  c = '\u00A0' || c = '\u200B' || c = '\u200C' || c = '\u200D' || c = '\uFEFF'

mutual
/-- `re.sub(r'\s+', ' ', text)`: each maximal whitespace run becomes one
space. -/
def collapseWs : List Char → List Char
  | [] => []
  | c :: cs => if isPySpace c then ' ' :: skipWsRun cs else c :: collapseWs cs

/-- Inside a whitespace run (already emitted as one space): skip the rest
of the run. -/
def skipWsRun : List Char → List Char
  | [] => []
  | c :: cs => if isPySpace c then skipWsRun cs else c :: collapseWs cs
end

/-- `str.strip()` (ASCII whitespace). -/
def pyStrip (cs : List Char) : List Char :=
  ((cs.dropWhile isPySpace).reverse.dropWhile isPySpace).reverse

/-- `StructureExtractor._clean_text`: collapse whitespace, strip, replace
artifact characters by spaces, collapse and strip again. -/
def seCleanText (s : String) : String :=
  let t1 := pyStrip (collapseWs s.data)
  let t2 := t1.map fun c => if isArtifactChar c then ' ' else c
  String.mk (pyStrip (collapseWs t2))

/-- Match of `\|\s*\d{4}\s*Form\s*10-[KQ]\s*\|` at position `i`. -/
def matchPageMarkerAt (cs : List Char) (i : Nat) : Bool :=
  match eatChar '|' (cs.drop i) with
  | none => false
  | some r1 =>
    match eatWs r1 with
    | d1 :: d2 :: d3 :: d4 :: r2 =>
      isDigitC d1 && isDigitC d2 && isDigitC d3 && isDigitC d4 &&
      (match eatWs r2 with
       | 'F' :: 'o' :: 'r' :: 'm' :: r3 =>
         (match eatWs r3 with
          | '1' :: '0' :: '-' :: k :: r4 =>
            (k = 'K' || k = 'Q') && (eatChar '|' (eatWs r4)).isSome
          | _ => false)
       | _ => false)
    | _ => false

/-- `StructureExtractor._is_page_marker`. -/
def isPageMarker (text : String) : Bool :=
  containsSub "PAGE_BREAK_MARKER".data text.data ||
    (firstIdxFrom (matchPageMarkerAt text.data) 0 text.data.length).isSome

/-- The `style=lambda s: s and '…' in s` filter of `_get_heading_info`:
a `span` element whose `style` attribute is present, non-empty and
contains the given fragment. -/
def isStyledSpan (frag : String) (n : HNode) : Bool :=
  tagName n = some "span" &&
    (match getAttr "style" n with
     | none => false
     | some v => v ≠ "" && containsSub frag.data v.data)

/-- `StructureExtractor._get_heading_info`: bold direct-child span gives a
level-1 heading, else an italic one gives level 2 (capped at 100
characters); heading text must be 3–200 characters after cleaning. -/
def getHeadingInfo (div : HNode) : Option (String × Nat × String) :=
  match (directChildren div).find? (isStyledSpan "font-weight:700") with
  | some _ =>
    let text := seCleanText (getTextN div)
    if text ≠ "" ∧ 3 ≤ text.length ∧ text.length ≤ 200 then
      some (text, 1, "bold")
    else none
  | none =>
    match (directChildren div).find? (isStyledSpan "font-style:italic") with
    | some _ =>
      let text := seCleanText (getTextN div)
      if (text ≠ "" ∧ 3 ≤ text.length ∧ text.length ≤ 200) ∧ text.length ≤ 100 then
        some (text, 2, "italic")
      else none
    | none => none

/-- `StructureExtractor._is_body_content`: not a heading, raw text
non-empty after stripping, not a page marker. -/
def isBodyContent (div : HNode) : Bool :=
  (getHeadingInfo div).isNone &&
    (let text := String.mk (pyStrip (getTextN div).data)
     text ≠ "" && !isPageMarker text)

/-- A collected flat element of `_collect_elements`. -/
inductive CElem where
  | heading (layer : Nat) (text : String) (styleType : String)
  | body (content : String)
deriving DecidableEq, Repr

def CElem.isHeading : CElem → Bool
  | .heading .. => true
  | .body _ => false

def isDivTag : HNode → Bool
  | .elem t _ _ _ => t = "div"
  | .text _ => false

/-- `StructureExtractor._collect_elements`: walk all `div` elements in
document order, keeping styled headings and non-marker body content. -/
def collectElements (soup : List HNode) : List CElem :=
  (findAllL isDivTag soup).filterMap fun div =>
    match getHeadingInfo div with
    | some (t, lvl, st) => some (.heading lvl t st)
    | none =>
      if isBodyContent div then
        let text := seCleanText (getTextN div)
        if text ≠ "" && !isPageMarker text then some (.body text) else none
      else none

/-- A node of the recovered outline (`type`, `layer`, `heading`, `body`,
`children`). -/
inductive ONode where
  | mk (kind : String) (layer : Nat) (heading : Option String) (body : String)
      (children : List ONode)

def ONode.kind : ONode → String
  | .mk k _ _ _ _ => k

def ONode.layer : ONode → Nat
  | .mk _ l _ _ _ => l

def ONode.heading : ONode → Option String
  | .mk _ _ h _ _ => h

def ONode.body : ONode → String
  | .mk _ _ _ b _ => b

def ONode.children : ONode → List ONode
  | .mk _ _ _ _ c => c

/-- An open heading still on the `_build_hierarchy` stack (its eventual
children accumulate until it is popped). -/
structure OpenN where
  layer : Nat
  headText : String
  body : String
  children : List ONode

/-- Close an open heading into an `ONode`. -/
def finishO (t : OpenN) : ONode :=
  .mk "heading" t.layer (some t.headText) t.body t.children

/-- Append a just-closed node to the children of an open heading (in the
Python code the closed node has been sitting in the parent's `children`
list since it was pushed; the pure rendering attaches it when it is
popped). -/
def attachChild (inc : Option ONode) (t : OpenN) : OpenN :=
  match inc with
  | none => t
  | some c => { t with children := t.children ++ [c] }

/-- Pop stack entries with `layer ≥ lvl`, attaching each popped node to
the node below it (or to the root list when the stack empties); `inc`
carries the most recently closed node downward. -/
def popCarry (lvl : Nat) (st : List ONode) (inc : Option ONode) :
    List OpenN → List ONode × List OpenN
  | [] => (st ++ inc.toList, [])
  | t :: rest =>
    if lvl ≤ (attachChild inc t).layer then
      popCarry lvl st (some (finishO (attachChild inc t))) rest
    else (st, attachChild inc t :: rest)

/-- The `while heading_stack and heading_stack[-1]['layer'] >= level`
pop loop of `_build_hierarchy`. -/
def popGE (lvl : Nat) (st : List ONode) (stack : List OpenN) :
    List ONode × List OpenN :=
  popCarry lvl st none stack

/-- Flush the stack at the end of the element walk, attaching each node to
the one below it. -/
def closeCarry (st : List ONode) (inc : Option ONode) : List OpenN → List ONode
  | [] => st ++ inc.toList
  | t :: rest => closeCarry st (some (finishO (attachChild inc t))) rest

def closeAll (st : List ONode) (stack : List OpenN) : List ONode :=
  closeCarry st none stack

/-- The element walk of `_build_hierarchy`: headings pop the stack to
their level and are pushed (attached to the parent on pop); body content
extends the current open heading's body (space-joined), and is dropped
when the stack is empty. -/
def goBuild : List CElem → List ONode → List OpenN → List ONode
  | [], st, stack => closeAll st stack
  | .heading lvl text _ :: es, st, stack =>
    let p := popGE lvl st stack
    goBuild es p.1 ({ layer := lvl, headText := text, body := "", children := [] } :: p.2)
  | .body content :: es, st, stack =>
    match stack with
    | [] => goBuild es st []
    | t :: rest =>
      goBuild es st
        ({ t with body := if t.body = "" then content else t.body ++ " " ++ content } :: rest)

/-- `StructureExtractor._build_hierarchy`. -/
def buildHierarchy (elems : List CElem) : List ONode :=
  if elems.isEmpty then [] else goBuild elems [] []

/-- `StructureExtractor.extract_structure` on a parsed document: remove
`script`/`style`, collect elements, build the hierarchy, and fall back to
a single `simple_text` node when nothing was built but text remains. -/
def extract_structure (soup : List HNode) : List ONode :=
  let stripped := stripTagsL ["script", "style"] soup
  let built := buildHierarchy (collectElements stripped)
  if built.isEmpty then
    let textContent := seCleanText (getTextL stripped)
    if textContent ≠ "" then [.mk "simple_text" 1 none textContent []] else []
  else built

/-! ### The depth invariant of the outline forest -/

/-- Well-formedness of an outline node: every child sits strictly deeper
than its parent, recursively.  (An `ONode` is a value of an inductive
type, so every forest of them is finite and acyclic by construction.) -/
inductive Good : ONode → Prop where
  | mk : ∀ (kind : String) (layer : Nat) (heading : Option String) (body : String)
      (children : List ONode),
      (∀ c ∈ children, layer < c.layer) →
      (∀ c ∈ children, Good c) →
      Good (.mk kind layer heading body children)

theorem Good.children_spec {n : ONode} (h : Good n) :
    ∀ c ∈ n.children, n.layer < c.layer ∧ Good c := by
  cases h with
  | mk kind layer heading body children hl hg =>
    exact fun c hc => ⟨hl c hc, hg c hc⟩

/-- An open stack entry whose accumulated children already sit strictly
deeper than it. -/
def GoodOpen (t : OpenN) : Prop := ∀ c ∈ t.children, t.layer < c.layer ∧ Good c

/-- The stack invariant of `_build_hierarchy`: every open entry is good
and layers strictly decrease towards the bottom of the stack. -/
def StackInv : List OpenN → Prop
  | [] => True
  | t :: rest => GoodOpen t ∧ (∀ u, rest.head? = some u → u.layer < t.layer) ∧ StackInv rest

/-- The carried, just-closed node is good and deeper than the stack top. -/
def IncOK (inc : Option ONode) (stack : List OpenN) : Prop :=
  ∀ c, inc = some c → Good c ∧ ∀ t rest, stack = t :: rest → t.layer < c.layer

theorem finishO_good {t : OpenN} (h : GoodOpen t) : Good (finishO t) :=
  Good.mk _ _ _ _ _ (fun c hc => (h c hc).1) (fun c hc => (h c hc).2)

theorem attachChild_goodOpen {inc : Option ONode} {t : OpenN} {stack : List OpenN}
    (hg : GoodOpen t) (hinc : IncOK inc (t :: stack)) :
    GoodOpen (attachChild inc t) := by
  cases inc with
  | none => exact hg
  | some c =>
    intro x hx
    rw [attachChild] at hx
    rcases List.mem_append.mp hx with hx' | hx'
    · exact hg x hx'
    · obtain ⟨hgc, hdeep⟩ := hinc c rfl
      rcases List.mem_singleton.mp hx' with rfl
      exact ⟨hdeep t stack rfl, hgc⟩

theorem attachChild_layer (inc : Option ONode) (t : OpenN) :
    (attachChild inc t).layer = t.layer := by
  cases inc with
  | none => rfl
  | some c => rfl

theorem closeCarry_good :
    ∀ (stack : List OpenN) (st : List ONode) (inc : Option ONode),
      StackInv stack → (∀ r ∈ st, Good r) → IncOK inc stack →
      ∀ r ∈ closeCarry st inc stack, Good r := by
  intro stack
  induction stack with
  | nil =>
    intro st inc _ hst hinc r hr
    rw [closeCarry] at hr
    rcases List.mem_append.mp hr with h | h
    · exact hst r h
    · cases inc with
      | none => simp at h
      | some c =>
        rcases List.mem_singleton.mp (by simpa using h) with rfl
        exact (hinc _ rfl).1
  | cons t rest ih =>
    intro st inc hsi hst hinc r hr
    obtain ⟨hg, hlt, hrest⟩ := hsi
    rw [closeCarry] at hr
    refine ih st _ hrest hst ?_ r hr
    intro c hc
    cases hc
    refine ⟨finishO_good (attachChild_goodOpen hg hinc), ?_⟩
    intro u rest' heq
    have : rest.head? = some u := by rw [heq]; rfl
    have := hlt u this
    show u.layer < (finishO (attachChild inc t)).layer
    have hfl : (finishO (attachChild inc t)).layer = t.layer := by
      rw [finishO, ONode.layer, attachChild_layer]
    omega

theorem popCarry_spec :
    ∀ (stack : List OpenN) (lvl : Nat) (st : List ONode) (inc : Option ONode),
      StackInv stack → (∀ r ∈ st, Good r) → IncOK inc stack →
      (∀ r ∈ (popCarry lvl st inc stack).1, Good r) ∧
      StackInv (popCarry lvl st inc stack).2 ∧
      (∀ t rest, (popCarry lvl st inc stack).2 = t :: rest → t.layer < lvl) := by
  intro stack
  induction stack with
  | nil =>
    intro lvl st inc _ hst hinc
    rw [popCarry]
    refine ⟨?_, trivial, ?_⟩
    · intro r hr
      rcases List.mem_append.mp hr with h | h
      · exact hst r h
      · cases inc with
        | none => simp at h
        | some c =>
          rcases List.mem_singleton.mp (by simpa using h) with rfl
          exact (hinc _ rfl).1
    · intro t rest heq
      cases heq
  | cons t rest ih =>
    intro lvl st inc hsi hst hinc
    obtain ⟨hg, hlt, hrest⟩ := hsi
    rw [popCarry]
    have hattach := attachChild_goodOpen hg hinc
    by_cases hcmp : lvl ≤ (attachChild inc t).layer
    · rw [if_pos hcmp]
      refine ih lvl st _ hrest hst ?_
      intro c hc
      cases hc
      refine ⟨finishO_good hattach, ?_⟩
      intro u rest' heq
      have : rest.head? = some u := by rw [heq]; rfl
      have := hlt u this
      show u.layer < (finishO (attachChild inc t)).layer
      have hfl : (finishO (attachChild inc t)).layer = t.layer := by
        rw [finishO, ONode.layer, attachChild_layer]
      have hal := attachChild_layer inc t
      omega
    · rw [if_neg hcmp]
      refine ⟨hst, ⟨hattach, ?_, hrest⟩, ?_⟩
      · intro u hu
        have := hlt u hu
        have hal := attachChild_layer inc t
        omega
      · intro t' rest' heq
        cases heq
        omega

theorem goBuild_good :
    ∀ (es : List CElem) (st : List ONode) (stack : List OpenN),
      (∀ r ∈ st, Good r) → StackInv stack →
      ∀ r ∈ goBuild es st stack, Good r := by
  intro es
  induction es with
  | nil =>
    intro st stack hst hsi r hr
    rw [goBuild] at hr
    exact closeCarry_good stack st none hsi hst (fun c hc => by cases hc) r hr
  | cons e es ih =>
    intro st stack hst hsi r hr
    cases e with
    | heading lvl text styleType =>
      rw [goBuild] at hr
      obtain ⟨hpg, hps, hpb⟩ :=
        popCarry_spec stack lvl st none hsi hst (fun c hc => by cases hc)
      refine ih _ _ hpg ?_ r hr
      show StackInv ({ layer := lvl, headText := text, body := "", children := [] } ::
        (popGE lvl st stack).2)
      refine ⟨fun c hc => by simp at hc, ?_, hps⟩
      intro u hu
      cases hstack : (popGE lvl st stack).2 with
      | nil => rw [hstack] at hu; cases hu
      | cons t' rest' =>
        rw [hstack] at hu
        have ht'u : t' = u := by injection hu
        exact ht'u ▸ hpb t' rest' hstack
    | body content =>
      cases stack with
      | nil =>
        rw [show goBuild (.body content :: es) st [] = goBuild es st [] from rfl] at hr
        exact ih st [] hst trivial r hr
      | cons t rest =>
        rw [show goBuild (.body content :: es) st (t :: rest) =
            goBuild es st ({ t with body := if t.body = "" then content
              else t.body ++ " " ++ content } :: rest) from rfl] at hr
        obtain ⟨hg, hlt, hrest⟩ := hsi
        exact ih st ({ t with body := if t.body = "" then content
            else t.body ++ " " ++ content } :: rest) hst ⟨hg, hlt, hrest⟩ r hr

/-! ## Claim C9 — children strictly deeper; the forest finite and acyclic -/

/-- C9, confirmed.  Every root of the outline forest satisfies `Good`:
along every edge the child's `layer` strictly exceeds the parent's.
Finiteness and acyclicity hold by construction, `ONode` being an inductive
type whose values the builder produces bottom-up. -/
theorem claim_C9 (soup : List HNode) (r : ONode)
    (hr : r ∈ extract_structure soup) : Good r := by
  rw [extract_structure] at hr
  by_cases hb : (buildHierarchy (collectElements (stripTagsL ["script", "style"] soup))).isEmpty
  · rw [if_pos hb] at hr
    by_cases ht : seCleanText (getTextL (stripTagsL ["script", "style"] soup)) ≠ ""
    · rw [if_pos ht] at hr
      rcases List.mem_singleton.mp hr with rfl
      exact Good.mk _ _ _ _ _ (fun c hc => by simp at hc) (fun c hc => by simp at hc)
    · rw [if_neg ht] at hr
      simp at hr
  · rw [if_neg hb] at hr
    rw [buildHierarchy] at hr hb
    by_cases he : (collectElements (stripTagsL ["script", "style"] soup)).isEmpty
    · rw [if_pos he] at hb
      simp at hb
    · rw [if_neg he] at hr
      exact goBuild_good _ [] [] (fun r hr => by simp at hr) trivial r hr

/-! ### Concrete parsed fragments for the Outline Builder claims -/

/-- `<div>Some preliminary body text here</div>`. -/
def exBodyDiv : HNode := .elem "div" none [] [.text "Some preliminary body text here"]

/-- `<div><span style="font-weight:700">Overview</span></div>`. -/
def exBoldDiv : HNode :=
  .elem "div" none [] [.elem "span" none [("style", "font-weight:700")] [.text "Overview"]]

/-- `<div>Some text.</div>`. -/
def exPlainDiv : HNode := .elem "div" none [] [.text "Some text."]

/-- `<div><span style="font-style:italic">Sub heading</span></div>`. -/
def exItalDiv : HNode :=
  .elem "div" none [] [.elem "span" none [("style", "font-style:italic")] [.text "Sub heading"]]

/-- C9, witness: the outline of a bold heading, body, italic subheading
and body satisfies the invariant. -/
theorem claim_C9_witness :
    Good (ONode.mk "heading" 1 (some "Overview") "Some text."
      [ONode.mk "heading" 2 (some "Sub heading") "Some text." []]) := by
  have h : extract_structure [exBoldDiv, exPlainDiv, exItalDiv, exPlainDiv] =
      [ONode.mk "heading" 1 (some "Overview") "Some text."
        [ONode.mk "heading" 2 (some "Sub heading") "Some text." []]] := rfl
  exact claim_C9 [exBoldDiv, exPlainDiv, exItalDiv, exPlainDiv] _
    (h ▸ List.Mem.head _)

/-! ## Claim C2 — pre-heading body text and the `simple_text` fallback -/

/-- C2, counterexample.  Markup holding a body `div` followed by a bold
heading `div`: the body text collected before the heading is silently
dropped, and the resulting forest is a single `heading` root — no
`simple_text` node appears anywhere. -/
theorem claim_C2_counterexample :
    extract_structure [exBodyDiv, exBoldDiv] =
      [ONode.mk "heading" 1 (some "Overview") "" []] ∧
    (extract_structure [exBodyDiv, exBoldDiv]).map ONode.kind = ["heading"] ∧
    "heading" ≠ "simple_text" :=
  ⟨rfl, rfl, by decide⟩

theorem goBuild_no_heading :
    ∀ {es : List CElem} (st : List ONode),
      (∀ e ∈ es, e.isHeading = false) → goBuild es st [] = st := by
  intro es
  induction es with
  | nil => intro st _; simp [goBuild, closeAll, closeCarry]
  | cons e es ih =>
    intro st h
    cases e with
    | heading lvl text styleType =>
      have := h _ (List.mem_cons_self _ _)
      simp [CElem.isHeading] at this
    | body content =>
      rw [show goBuild (.body content :: es) st [] = goBuild es st [] from rfl]
      exact ih st fun e he => h e (List.mem_cons_of_mem _ he)

theorem buildHierarchy_no_heading {es : List CElem}
    (h : ∀ e ∈ es, e.isHeading = false) : buildHierarchy es = [] := by
  rw [buildHierarchy]
  by_cases he : es.isEmpty
  · rw [if_pos he]
  · rw [if_neg he]
    exact goBuild_no_heading [] h

/-- C2, amended.  Body text collected *before any heading* is dropped, not
turned into a root (see the counterexample); the `simple_text` fallback
arises exactly when **no heading at all** is collected: then, provided the
cleaned document text is non-empty, the whole forest is one root of kind
`simple_text` with no children holding the full cleaned text. -/
theorem claim_C2_amended (soup : List HNode)
    (hnh : (collectElements (stripTagsL ["script", "style"] soup)).all
      (fun e => !e.isHeading) = true)
    (htext : seCleanText (getTextL (stripTagsL ["script", "style"] soup)) ≠ "") :
    extract_structure soup =
      [ONode.mk "simple_text" 1 none
        (seCleanText (getTextL (stripTagsL ["script", "style"] soup))) []] := by
  have hall : ∀ e ∈ collectElements (stripTagsL ["script", "style"] soup),
      e.isHeading = false := by
    intro e he
    have := List.all_eq_true.mp hnh e he
    simpa using this
  have hb := buildHierarchy_no_heading hall
  rw [extract_structure]
  simp only [hb, List.isEmpty_nil, if_true]
  rw [if_pos htext]

/-- C2, witness: a document with a single body `div` and no heading
becomes one `simple_text` root. -/
theorem claim_C2_witness :
    (collectElements (stripTagsL ["script", "style"] [exBodyDiv])).all
      (fun e => !e.isHeading) = true ∧
    extract_structure [exBodyDiv] =
      [ONode.mk "simple_text" 1 none "Some preliminary body text here" []] :=
  ⟨rfl, claim_C2_amended [exBodyDiv] rfl (by decide)⟩

/-! ## Claim C10 — only `div` elements are block-level candidates -/

mutual
def noDivN : HNode → Bool
  | .text _ => true
  | .elem t _ _ cs => !(t == "div") && noDivL cs

def noDivL : List HNode → Bool
  | [] => true
  | n :: ns => noDivN n && noDivL ns
end

theorem noDivL_append {l1 l2 : List HNode} :
    noDivL (l1 ++ l2) = (noDivL l1 && noDivL l2) := by
  induction l1 with
  | nil => simp [noDivL]
  | cons n ns ih =>
    rw [List.cons_append, noDivL, noDivL, ih, Bool.and_assoc]

mutual
theorem stripTags_noDivN (names : List String) :
    ∀ n : HNode, noDivN n = true → noDivL (stripTagsN names n) = true
  | .text s, _ => rfl
  | .elem t l attrs cs, h => by
    rw [noDivN] at h
    rw [Bool.and_eq_true] at h
    obtain ⟨h1, h2⟩ := h
    rw [stripTagsN]
    by_cases hc : names.contains t
    · rw [if_pos hc]; rfl
    · rw [if_neg hc]
      show noDivL [.elem t l attrs (stripTagsL names cs)] = true
      rw [noDivL, noDivN]
      have := stripTags_noDivL names cs h2
      simp [h1, this, noDivL]

theorem stripTags_noDivL (names : List String) :
    ∀ ns : List HNode, noDivL ns = true → noDivL (stripTagsL names ns) = true
  | [], _ => rfl
  | n :: ns, h => by
    rw [noDivL] at h
    rw [Bool.and_eq_true] at h
    obtain ⟨h1, h2⟩ := h
    rw [stripTagsL, noDivL_append]
    simp [stripTags_noDivN names n h1, stripTags_noDivL names ns h2]
end

mutual
theorem findAll_div_nilN :
    ∀ n : HNode, noDivN n = true → findAllN isDivTag n = []
  | .text _, _ => rfl
  | .elem t l attrs cs, h => by
    rw [noDivN] at h
    rw [Bool.and_eq_true] at h
    obtain ⟨h1, h2⟩ := h
    rw [findAllN]
    have hdiv : isDivTag (.elem t l attrs cs) = false := by
      simp [isDivTag]
      simp at h1
      exact h1
    rw [hdiv]
    simp [findAll_div_nilL cs h2]

theorem findAll_div_nilL :
    ∀ ns : List HNode, noDivL ns = true → findAllL isDivTag ns = []
  | [], _ => rfl
  | n :: ns, h => by
    rw [noDivL] at h
    rw [Bool.and_eq_true] at h
    obtain ⟨h1, h2⟩ := h
    rw [findAllL, findAll_div_nilN n h1, findAll_div_nilL ns h2]
    rfl
end

/-- C10, confirmed.  The Outline Builder's element walk only examines
`div` elements: on markup with no `div` anywhere, no element is collected,
so the result is the `simple_text` fallback — the empty forest when the
cleaned text is empty, else exactly one `simple_text` root holding the
full cleaned text — regardless of any styled spans in other elements. -/
theorem claim_C10 (soup : List HNode) (h : noDivL soup = true) :
    extract_structure soup =
      (if seCleanText (getTextL (stripTagsL ["script", "style"] soup)) ≠ "" then
        [ONode.mk "simple_text" 1 none
          (seCleanText (getTextL (stripTagsL ["script", "style"] soup))) []]
       else []) := by
  have hstrip : noDivL (stripTagsL ["script", "style"] soup) = true :=
    stripTags_noDivL _ _ h
  have hfind : findAllL isDivTag (stripTagsL ["script", "style"] soup) = [] :=
    findAll_div_nilL _ hstrip
  have hcoll : collectElements (stripTagsL ["script", "style"] soup) = [] := by
    rw [collectElements, hfind]
    rfl
  rw [extract_structure]
  simp only [hcoll]
  rfl

/-- C10, witness: markup with a bold span inside a `p` and an `h1`, but no
`div`, yields exactly one `simple_text` root with the concatenated cleaned
text. -/
def exNoDivSoup : List HNode :=
  [.elem "p" none [] [.elem "span" none [("style", "font-weight:700")] [.text "Bold in p"]],
   .elem "h1" none [] [.text "Header"]]

theorem claim_C10_witness :
    noDivL exNoDivSoup = true ∧
    extract_structure exNoDivSoup =
      [ONode.mk "simple_text" 1 none "Bold in pHeader" []] :=
  ⟨rfl, (claim_C10 exNoDivSoup rfl).trans rfl⟩

/-! ## Claim C5 — heading classification of a block element -/

theorem ne_empty_of_three_le_length {s : String} (h : 3 ≤ s.length) : s ≠ "" := by
  intro hc
  subst hc
  simp at h

/-- C5, confirmed.  A block element is a depth-1 heading iff it has a
direct child `span` styled `font-weight:700` and its cleaned text length
lies in `[3, 200]`; it is a depth-2 heading iff it has no such bold child,
has a direct child `span` styled `font-style:italic`, and its cleaned text
length lies in `[3, 100]` (the upper bound 200 of the general range being
subsumed by the ≤ 100 sub-heading cap); any other element is not a
heading (the returned level is always 1 or 2). -/
theorem claim_C5 (div : HNode) :
    (∀ t lvl st, getHeadingInfo div = some (t, lvl, st) → lvl = 1 ∨ lvl = 2) ∧
    ((∃ t st, getHeadingInfo div = some (t, 1, st)) ↔
      ((∃ c ∈ directChildren div, isStyledSpan "font-weight:700" c = true) ∧
        3 ≤ (seCleanText (getTextN div)).length ∧
        (seCleanText (getTextN div)).length ≤ 200)) ∧
    ((∃ t st, getHeadingInfo div = some (t, 2, st)) ↔
      ((¬∃ c ∈ directChildren div, isStyledSpan "font-weight:700" c = true) ∧
        (∃ c ∈ directChildren div, isStyledSpan "font-style:italic" c = true) ∧
        3 ≤ (seCleanText (getTextN div)).length ∧
        (seCleanText (getTextN div)).length ≤ 100)) := by
  have hex : ∀ frag : String,
      ((directChildren div).find? (isStyledSpan frag)).isSome ↔
        ∃ c ∈ directChildren div, isStyledSpan frag c = true := by
    intro frag
    exact List.find?_isSome
  rcases hb : (directChildren div).find? (isStyledSpan "font-weight:700") with _ | bs
  · have hnobold : ¬∃ c ∈ directChildren div, isStyledSpan "font-weight:700" c = true := by
      rw [← hex]
      simp [hb]
    rcases hi : (directChildren div).find? (isStyledSpan "font-style:italic") with _ | is
    · have hnoital : ¬∃ c ∈ directChildren div, isStyledSpan "font-style:italic" c = true := by
        rw [← hex]
        simp [hi]
      have hres : getHeadingInfo div = none := by
        rw [getHeadingInfo, hb, hi]
      refine ⟨?_, ?_, ?_⟩
      · intro t lvl st h
        rw [hres] at h
        cases h
      · constructor
        · rintro ⟨t, st, h⟩
          rw [hres] at h
          cases h
        · rintro ⟨hbold, -⟩
          exact absurd hbold hnobold
      · constructor
        · rintro ⟨t, st, h⟩
          rw [hres] at h
          cases h
        · rintro ⟨-, hital, -⟩
          exact absurd hital hnoital
    · have hital : ∃ c ∈ directChildren div, isStyledSpan "font-style:italic" c = true := by
        rw [← hex]
        simp [hi]
      have hres : getHeadingInfo div =
          (if (seCleanText (getTextN div) ≠ "" ∧ 3 ≤ (seCleanText (getTextN div)).length ∧
              (seCleanText (getTextN div)).length ≤ 200) ∧
              (seCleanText (getTextN div)).length ≤ 100 then
            some (seCleanText (getTextN div), 2, "italic")
          else none) := by
        rw [getHeadingInfo, hb, hi]
      refine ⟨?_, ?_, ?_⟩
      · intro t lvl st h
        rw [hres] at h
        by_cases hc : (seCleanText (getTextN div) ≠ "" ∧
            3 ≤ (seCleanText (getTextN div)).length ∧
            (seCleanText (getTextN div)).length ≤ 200) ∧
            (seCleanText (getTextN div)).length ≤ 100
        · rw [if_pos hc] at h
          right
          exact (congrArg (fun x => x.2.1) (Option.some.inj h)).symm
        · rw [if_neg hc] at h
          cases h
      · constructor
        · rintro ⟨t, st, h⟩
          rw [hres] at h
          by_cases hc : (seCleanText (getTextN div) ≠ "" ∧
              3 ≤ (seCleanText (getTextN div)).length ∧
              (seCleanText (getTextN div)).length ≤ 200) ∧
              (seCleanText (getTextN div)).length ≤ 100
          · rw [if_pos hc] at h
            have h21 : (2 : Nat) = 1 := congrArg (fun x => x.2.1) (Option.some.inj h)
            cases h21
          · rw [if_neg hc] at h
            cases h
        · rintro ⟨hbold, -⟩
          exact absurd hbold hnobold
      · constructor
        · rintro ⟨t, st, h⟩
          rw [hres] at h
          by_cases hc : (seCleanText (getTextN div) ≠ "" ∧
              3 ≤ (seCleanText (getTextN div)).length ∧
              (seCleanText (getTextN div)).length ≤ 200) ∧
              (seCleanText (getTextN div)).length ≤ 100
          · rw [if_pos hc] at h
            exact ⟨hnobold, hital, hc.1.2.1, hc.2⟩
          · rw [if_neg hc] at h
            cases h
        · rintro ⟨-, -, hlen3, hlen100⟩
          refine ⟨seCleanText (getTextN div), "italic", ?_⟩
          rw [hres, if_pos ⟨⟨ne_empty_of_three_le_length hlen3, hlen3, by omega⟩, hlen100⟩]
  · have hbold : ∃ c ∈ directChildren div, isStyledSpan "font-weight:700" c = true := by
      rw [← hex]
      simp [hb]
    have hres : getHeadingInfo div =
        (if seCleanText (getTextN div) ≠ "" ∧ 3 ≤ (seCleanText (getTextN div)).length ∧
            (seCleanText (getTextN div)).length ≤ 200 then
          some (seCleanText (getTextN div), 1, "bold")
        else none) := by
      rw [getHeadingInfo, hb]
    refine ⟨?_, ?_, ?_⟩
    · intro t lvl st h
      rw [hres] at h
      by_cases hc : seCleanText (getTextN div) ≠ "" ∧
          3 ≤ (seCleanText (getTextN div)).length ∧
          (seCleanText (getTextN div)).length ≤ 200
      · rw [if_pos hc] at h
        left
        exact (congrArg (fun x => x.2.1) (Option.some.inj h)).symm
      · rw [if_neg hc] at h
        cases h
    · constructor
      · rintro ⟨t, st, h⟩
        rw [hres] at h
        by_cases hc : seCleanText (getTextN div) ≠ "" ∧
            3 ≤ (seCleanText (getTextN div)).length ∧
            (seCleanText (getTextN div)).length ≤ 200
        · rw [if_pos hc] at h
          exact ⟨hbold, hc.2.1, hc.2.2⟩
        · rw [if_neg hc] at h
          cases h
      · rintro ⟨-, hlen3, hlen200⟩
        refine ⟨seCleanText (getTextN div), "bold", ?_⟩
        rw [hres, if_pos ⟨ne_empty_of_three_le_length hlen3, hlen3, hlen200⟩]
    · constructor
      · rintro ⟨t, st, h⟩
        rw [hres] at h
        by_cases hc : seCleanText (getTextN div) ≠ "" ∧
            3 ≤ (seCleanText (getTextN div)).length ∧
            (seCleanText (getTextN div)).length ≤ 200
        · rw [if_pos hc] at h
          have h12 : (1 : Nat) = 2 := congrArg (fun x => x.2.1) (Option.some.inj h)
          cases h12
        · rw [if_neg hc] at h
          cases h
      · rintro ⟨hnobold, -⟩
        exact absurd hbold hnobold

/-- C5, witness: the bold-headed `div` is classified as a depth-1
heading. -/
theorem claim_C5_witness :
    ∃ t st, getHeadingInfo exBoldDiv = some (t, 1, st) :=
  (claim_C5 exBoldDiv).2.1.mpr (by decide)

/-! ## `SECParser.parse_toc` — the Anchor Index Builder
(src/itemextraction/parser.py lines 26–272) -/

/-- ASCII upper-casing (`str.upper` on ASCII text). -/
def pyUpper (c : Char) : Char :=
  if 'a' ≤ c ∧ c ≤ 'z' then Char.ofNat (c.toNat - 32) else c

/-- Consume `pat` case-sensitively. -/
def eatL : List Char → List Char → Option (List Char)
  | [], cs => some cs
  | _ :: _, [] => none
  | p :: ps, c :: cs => if c = p then eatL ps cs else none

/-- `SECParser._clean_text`: collapse whitespace runs, strip. -/
def parserCleanText (s : String) : String :=
  String.mk (pyStrip (collapseWs s.data))

/-- `SECParser._clean_item_title` — strip trailing page numbers with three
successive substitutions (`\s+\d+\s*$` → ``, `\.\s*\d+\s*$` → `.`,
`\d+\s*$` → ``), then strip.  Each is computed on the reversed character
list: trailing whitespace, then the digit run, then what the pattern
demands before it. -/
def cleanItemTitle (s : String) : String :=
  let r := s.data.reverse
  let r1 :=
    let t := r.dropWhile isPySpace
    let d := t.takeWhile isDigitC
    let afterD := t.dropWhile isDigitC
    if !d.isEmpty && !(afterD.takeWhile isPySpace).isEmpty then
      afterD.dropWhile isPySpace
    else r
  let r2 :=
    let t := r1.dropWhile isPySpace
    let d := t.takeWhile isDigitC
    let afterW := (t.dropWhile isDigitC).dropWhile isPySpace
    if !d.isEmpty && afterW.head? = some '.' then afterW else r1
  let r3 :=
    let t := r2.dropWhile isPySpace
    let d := t.takeWhile isDigitC
    if !d.isEmpty then t.dropWhile isDigitC else r2
  String.mk (pyStrip r3.reverse)

/-- The shared tail `(\d+[A-Za-z]?)\b` of the two item-number patterns:
maximal digit run, optionally one letter, then a word boundary; returns
the captured group. -/
def matchItemTail (r2 : List Char) : Option (List Char) :=
  let d := r2.takeWhile isDigitC
  if d.isEmpty then none
  else
    match r2.dropWhile isDigitC with
    | [] => some d
    | c :: r4 =>
      if isAsciiLetter c then
        match r4 with
        | [] => some (d ++ [c])
        | c' :: _ => if isWordC c' then none else some (d ++ [c])
      else if isWordC c then none
      else some d

/-- `item\s+(\d+[A-Za-z]?)\b` (case-insensitive) at position `i`; returns
the captured group. -/
def matchItemAt (cs : List Char) (i : Nat) : Option (List Char) :=
  match eatCI ['i', 't', 'e', 'm'] (cs.drop i) with
  | none => none
  | some r1 =>
    if (r1.takeWhile isPySpace).isEmpty then none
    else matchItemTail (r1.dropWhile isPySpace)

/-- `part\s+[IV]+\s*[–-]\s*item\s+(\d+[A-Za-z]?)\b` (case-insensitive) at
position `i`. -/
def matchPartItemAt (cs : List Char) (i : Nat) : Option (List Char) :=
  match eatCI ['p', 'a', 'r', 't'] (cs.drop i) with
  | none => none
  | some r1 =>
    if (r1.takeWhile isPySpace).isEmpty then none
    else
      let r2 := r1.dropWhile isPySpace
      let iv := r2.takeWhile fun c => pyLower c = 'i' || pyLower c = 'v'
      if iv.isEmpty then none
      else
        match eatWs (r2.dropWhile fun c => pyLower c = 'i' || pyLower c = 'v') with
        | [] => none
        | dash :: r3 =>
          if dash = '–' || dash = '-' then
            match eatCI ['i', 't', 'e', 'm'] (eatWs r3) with
            | none => none
            | some r4 =>
              if (r4.takeWhile isPySpace).isEmpty then none
              else matchItemTail (r4.dropWhile isPySpace)
          else none

/-- `SECParser._extract_item_number`: search the first pattern, then the
second; upper-case the captured group. -/
def extractItemNumber (text : String) : Option String :=
  let cs := text.data
  match firstIdxFrom (fun i => (matchItemAt cs i).isSome) 0 cs.length with
  | some i => (matchItemAt cs i).map fun g => String.mk (g.map pyUpper)
  | none =>
    match firstIdxFrom (fun i => (matchPartItemAt cs i).isSome) 0 cs.length with
    | some i => (matchPartItemAt cs i).map fun g => String.mk (g.map pyUpper)
    | none => none

/-- `item\s+\d+[a-z]?` at position `i` of the lower-cased table text;
returns the match end for `re.findall`'s continue-after-match scan. -/
def matchItemRefAt (cs : List Char) (i : Nat) : Option Nat :=
  match eatL ['i', 't', 'e', 'm'] (cs.drop i) with
  | none => none
  | some r1 =>
    let w := r1.takeWhile isPySpace
    if w.isEmpty then none
    else
      let r2 := r1.dropWhile isPySpace
      let d := r2.takeWhile isDigitC
      if d.isEmpty then none
      else
        let letter : Nat :=
          match r2.dropWhile isDigitC with
          | c :: _ => if 'a' ≤ c ∧ c ≤ 'z' then 1 else 0
          | [] => 0
        some (i + 4 + w.length + d.length + letter)

/-- The `re.findall` count: scan left to right, restarting after each
match end (the fuel is one more than the length, enough for the whole
scan). -/
def countItemRefsFrom (cs : List Char) : Nat → Nat → Nat
  | _, 0 => 0
  | i, fuel + 1 =>
    match matchItemRefAt cs i with
    | some e => 1 + countItemRefsFrom cs e fuel
    | none =>
      if i < cs.length then countItemRefsFrom cs (i + 1) fuel else 0

def countItemRefs (cs : List Char) : Nat :=
  countItemRefsFrom cs 0 (cs.length + 1)

/-- The `toc_indicators` list of `_find_toc_table`. -/
def tocIndicators : List String :=
  ["table of contents", "index to financial statements", "item 1.",
   "item 1a", "part i", "part ii", "item 1 "]

def isTagNamed (name : String) (n : HNode) : Bool := tagName n = some name

def pickBestGo (c : Nat) (t : HNode) : List (Nat × HNode) → HNode
  | [] => t
  | (c', t') :: rest => if c < c' then pickBestGo c' t' rest else pickBestGo c t rest

/-- `sort(reverse=True)` on `(item_count, table)` pairs followed by taking
the head: the first table (document order) among those with the maximal
item count. -/
def pickBestTable : List (Nat × HNode) → Option HNode
  | [] => none
  | (c, t) :: rest => some (pickBestGo c t rest)

/-- `SECParser._find_toc_table`. -/
def findTocTable (soup : List HNode) : Option HNode :=
  let tables := findAllL (isTagNamed "table") soup
  let potential := tables.filterMap fun tb =>
    let low := lowerL (parserCleanText (getTextN tb)).data
    let itemCount := countItemRefs low
    let hasInd := tocIndicators.any fun ind => containsSub ind.data low
    if hasInd || itemCount ≥ 2 then
      if !(findAllN (isTagNamed "a") tb).isEmpty || itemCount ≥ 3 then
        some (itemCount, tb)
      else none
    else none
  pickBestTable potential

/-- Python dict assignment `toc_items[k] = v`: replace in place or append. -/
def dictInsert (k : String) (v : TocEntry) :
    List (String × TocEntry) → List (String × TocEntry)
  | [] => [(k, v)]
  | (k', v') :: rest =>
    if k = k' then (k, v) :: rest else (k', v') :: dictInsert k v rest

/-- `href.split('#')[1]`: the segment between the first `#` and the next
one (or the end). -/
def afterFirstHash : List Char → List Char
  | [] => []
  | c :: cs => if c = '#' then cs.takeWhile (· ≠ '#') else afterFirstHash cs

/-- The `for link in links` anchor-resolution loop of
`_parse_toc_from_table`: the running `anchor` value persists across
iterations, and the loop breaks on the first truthy anchor. -/
def anchorFromLinks (acc : Option String) : List HNode → Option String
  | [] => acc
  | l :: ls =>
    let href := (getAttr "href" l).getD ""
    let acc' :=
      if containsSub ['#'] href.data then some (String.mk (afterFirstHash href.data))
      else if href.data.head? = some '#' then some (String.mk href.data.tail)
      else acc
    if strTruthy acc' then acc' else anchorFromLinks acc' ls

/-- `SECParser._parse_toc_from_table`. -/
def parseTocFromTable (table : HNode) (_filingType : String) :
    List (String × TocEntry) :=
  let rows := findAllN (isTagNamed "tr") table
  rows.foldl (fun toc row =>
    let rowText := parserCleanText (getTextN row)
    match extractItemNumber rowText with
    | none => toc
    | some itemNum =>
      let links := findAllN (fun n => isTagNamed "a" n && (getAttr "href" n).isSome) row
      let anchor := anchorFromLinks none links
      let anchor :=
        if !strTruthy anchor then
          if attrTruthy "id" row then getAttr "id" row else anchor
        else anchor
      dictInsert itemNum ⟨anchor, some (cleanItemTitle rowText)⟩ toc) []

/-! ### The structural fallback `_find_toc_from_structure` -/

mutual
/-- Pre-order indexing of all elements of a node (text runs carry no
index); used to model BeautifulSoup's `find_previous` document-order
traversal. -/
def indexN (n : HNode) (i : Nat) : Nat × List (Nat × HNode) :=
  match n with
  | .text _ => (i, [])
  | .elem t l attrs cs =>
    match indexL cs (i + 1) with
    | (i', sub) => (i', (i, .elem t l attrs cs) :: sub)

def indexL (ns : List HNode) (i : Nat) : Nat × List (Nat × HNode) :=
  match ns with
  | [] => (i, [])
  | n :: rest =>
    match indexN n i with
    | (i', sub) =>
      match indexL rest i' with
      | (i'', sub') => (i'', sub ++ sub')
end

def sourcelineOf : HNode → Option Nat
  | .text _ => none
  | .elem _ l _ _ => l

/-- `heading.find_previous('a', attrs={'name': True})`: the nearest
preceding (document order) `a` element carrying a `name` attribute. -/
def findPrevNamedA (allElems : List (Nat × HNode)) (idx : Nat) : Option HNode :=
  allElems.foldl (fun acc p =>
    if p.1 < idx && isTagNamed "a" p.2 && (getAttr "name" p.2).isSome then some p.2
    else acc) none

def structHeadingTags : List String := ["h1", "h2", "h3", "h4", "p", "div"]

/-- Anchor resolution for one candidate heading of
`_find_toc_from_structure`. -/
def structAnchor (allElems : List (Nat × HNode)) (idx : Nat) (h : HNode) :
    Option String :=
  let a0 : Option String :=
    if attrTruthy "id" h then getAttr "id" h
    else if attrTruthy "name" h then getAttr "name" h
    else none
  let a1 : Option String :=
    if strTruthy a0 then a0
    else
      match (findAllN (isTagNamed "a") h).head? with
      | some aTag =>
        if attrTruthy "name" aTag then getAttr "name" aTag
        else if attrTruthy "id" aTag then getAttr "id" aTag
        else a0
      | none => a0
  if strTruthy a1 then a1
  else
    match findPrevNamedA allElems idx with
    | some prev =>
      match sourcelineOf h, sourcelineOf prev with
      | some lh, some lp =>
        if lh ≠ 0 && lp ≠ 0 && (max lh lp - min lh lp < 10) then
          getAttr "name" prev
        else a1
      | _, _ => a1
    | none => a1

/-- The candidate loop of `_find_toc_from_structure` (caps the mapping at
20 items; a candidate already present with a truthy anchor is kept). -/
def structLoop (allElems : List (Nat × HNode)) :
    List (Nat × HNode) → List (String × TocEntry) → List (String × TocEntry)
  | [], toc => toc
  | (idx, h) :: hs, toc =>
    if toc.length ≥ 20 then toc
    else
      let text := parserCleanText (getTextN h)
      match extractItemNumber text with
      | none => structLoop allElems hs toc
      | some itemNum =>
        let anchor := structAnchor allElems idx h
        let toc' :=
          match List.lookup itemNum toc with
          | none => dictInsert itemNum ⟨anchor, some (cleanItemTitle text)⟩ toc
          | some entry =>
            if !strTruthy entry.anchor then
              dictInsert itemNum ⟨anchor, some (cleanItemTitle text)⟩ toc
            else toc
        structLoop allElems hs toc'

/-- `SECParser._find_toc_from_structure`. -/
def findTocFromStructure (soup : List HNode) (_filingType : String) :
    List (String × TocEntry) :=
  let allElems := (indexL soup 0).2
  let headings :=
    (allElems.filter fun p =>
      match tagName p.2 with
      | some t => structHeadingTags.contains t
      | none => false).take 200
  structLoop allElems headings []

/-- `SECParser.parse_toc`: table first (accepted with ≥ 2 items), then the
structural fallback (ditto), else `none`. -/
def parse_toc (soup : List HNode) (filingType2 : String) :
    Option (List (String × TocEntry)) :=
  let viaTable :=
    match findTocTable soup with
    | some table =>
      let items := parseTocFromTable table filingType2
      if !items.isEmpty && items.length ≥ 2 then some items else none
    | none => none
  match viaTable with
  | some items => some items
  | none =>
    let items := findTocFromStructure soup filingType2
    if items.length ≥ 2 then some items else none

/-! ## Claim C7 — the end-to-end TOC scenario -/

/-- `<tr><td><a href="#item1">Item 1. Business</a></td> <td>....</td>
<td>3</td></tr>` — a row whose flattened text is
`"Item 1. Business .... 3"`. -/
def exRow1 : HNode := .elem "tr" none []
  [.elem "td" none [] [.elem "a" none [("href", "#item1")] [.text "Item 1. Business"]],
   .text " ", .elem "td" none [] [.text "...."], .text " ", .elem "td" none [] [.text "3"]]

/-- The `"Item 1A. Risk Factors .... 10"` row with anchor `#item1a`. -/
def exRow2 : HNode := .elem "tr" none []
  [.elem "td" none [] [.elem "a" none [("href", "#item1a")] [.text "Item 1A. Risk Factors"]],
   .text " ", .elem "td" none [] [.text "...."], .text " ", .elem "td" none [] [.text "10"]]

/-- A document holding just that table. -/
def exTocSoup : List HNode := [.elem "table" none [] [exRow1, .text "\n", exRow2]]

/-- C7, counterexample.  On markup containing the two claimed rows,
`parse_toc` does return anchors `item1`/`item1a`, but the recorded titles
are `"Item 1. Business ...."` and `"Item 1A. Risk Factors ...."` — the
title cleaner strips only the trailing page number, not the dot leaders
that are part of the row text, so the mapping differs from the claimed
one. -/
theorem claim_C7_counterexample :
    parse_toc exTocSoup "10-K" =
      some [("1", ⟨some "item1", some "Item 1. Business ...."⟩),
            ("1A", ⟨some "item1a", some "Item 1A. Risk Factors ...."⟩)] ∧
    parse_toc exTocSoup "10-K" ≠
      some [("1", ⟨some "item1", some "Item 1. Business"⟩),
            ("1A", ⟨some "item1a", some "Item 1A. Risk Factors"⟩)] :=
  ⟨by decide, by decide⟩

/-- C7, amended.  On that markup `parse_toc` returns the mapping
`{"1" ↦ (anchor "item1", title "Item 1. Business ...."),
"1A" ↦ (anchor "item1a", title "Item 1A. Risk Factors ....")}`: anchors
as claimed, titles retaining the dot leaders of the row text (only the
trailing page number is stripped). -/
theorem claim_C7_amended :
    parse_toc exTocSoup "10-K" =
      some [("1", ⟨some "item1", some "Item 1. Business ...."⟩),
            ("1A", ⟨some "item1a", some "Item 1A. Risk Factors ...."⟩)] := by
  decide

/-! ## `ItemExtractor` (src/itemextraction/extractor.py) -/

def pageBreakMarker : String := "PAGE_BREAK_MARKER"

/-- `text.split(sep)` (non-overlapping, left to right); indices with a
fuel one past the length, enough for the scan. -/
def splitOnFrom (cs sep : List Char) : Nat → Nat → List Char → List (List Char)
  | _, 0, acc => [acc.reverse]
  | i, fuel + 1, acc =>
    if i ≥ cs.length then [acc.reverse]
    else if (cs.drop i).take sep.length = sep then
      acc.reverse :: splitOnFrom cs sep (i + sep.length) fuel []
    else splitOnFrom cs sep (i + 1) fuel (cs.getD i ' ' :: acc)

def splitOn (sep cs : List Char) : List (List Char) :=
  splitOnFrom cs sep 0 (cs.length + 1) []

/-- `str.split()` with no separator: whitespace-run splitting, no empty
words. -/
def pyWordsGo : List Char → List Char → List (List Char)
  | acc, [] => if acc.isEmpty then [] else [acc.reverse]
  | acc, c :: cs =>
    if isPySpace c then
      if acc.isEmpty then pyWordsGo [] cs else acc.reverse :: pyWordsGo [] cs
    else pyWordsGo (c :: acc) cs

def pyWords (cs : List Char) : List (List Char) := pyWordsGo [] cs

def joinSpace : List (List Char) → List Char
  | [] => []
  | [w] => w
  | w :: ws => w ++ ' ' :: joinSpace ws

/-- `str.isdigit` (ASCII): non-empty, all digits. -/
def pyIsDigit (w : List Char) : Bool := !w.isEmpty && w.all isDigitC

/-- The `artifact_phrases` set of `ItemExtractor`. -/
def artifactPhrases : List String :=
  ["table of contents", "page", "form", "10-k", "10-q", "10-a",
   "form 10-k summary", "not applicable"]

def inArtifactPhrases (w : List Char) : Bool :=
  artifactPhrases.any fun p => p.data = w

def isLowerAlpha (c : Char) : Bool := 'a' ≤ c ∧ c ≤ 'z'

/-- `^\d{1,3}$`. -/
def artifactPat1 (w : List Char) : Bool :=
  1 ≤ w.length && w.length ≤ 3 && w.all isDigitC

def corpSuffixes : List String :=
  ["inc", "corp", "ltd", "llc", "co", "inc.", "corp.", "ltd.", "llc.", "co."]

/-- `^[a-z\s]+(?:inc|corp|ltd|llc|co)\.?$`. -/
def artifactPat2 (w : List Char) : Bool :=
  (List.range (w.length + 1)).any fun k =>
    1 ≤ k && (w.take k).all (fun c => isLowerAlpha c || isPySpace c) &&
      corpSuffixes.any fun sfx => sfx.data = w.drop k

/-- `^[a-z]+ (?:inc|corp|ltd)\s*\|\s*\d{4}` (a prefix match). -/
def artifactPat3 (w : List Char) : Bool :=
  let run := w.takeWhile isLowerAlpha
  if run.isEmpty then false
  else
    match eatChar ' ' (w.drop run.length) with
    | none => false
    | some r1 =>
      match ((eatL "inc".data r1).orElse fun _ => (eatL "corp".data r1).orElse
          fun _ => eatL "ltd".data r1) with
      | none => false
      | some r2 =>
        match eatChar '|' (eatWs r2) with
        | none => false
        | some r3 =>
          match eatWs r3 with
          | d1 :: d2 :: d3 :: d4 :: _ =>
            isDigitC d1 && isDigitC d2 && isDigitC d3 && isDigitC d4
          | _ => false

/-- `^(?:inc|form|10-?k)\s*\|` (a prefix match). -/
def artifactPat4 (w : List Char) : Bool :=
  let afterAlt : Option (List Char) :=
    (eatL "inc".data w).orElse fun _ =>
      (eatL "form".data w).orElse fun _ =>
        match eatL "10".data w with
        | none => none
        | some r =>
          match r with
          | 'k' :: r' => some r'
          | '-' :: 'k' :: r' => some r'
          | _ => none
  match afterAlt with
  | none => false
  | some r => (eatChar '|' (eatWs r)).isSome

/-- `any(pattern.match(word) for pattern in self.artifact_patterns)`. -/
def matchesArtifactPattern (w : List Char) : Bool :=
  artifactPat1 w || artifactPat2 w || artifactPat3 w || artifactPat4 w

/-- One-word artifact test applied to the lowered boundary word. -/
def isArtifactWord (lw : List Char) : Bool :=
  pyIsDigit lw || inArtifactPhrases lw || lw = ['|']

/-- The trailing-trim loop: `while len(words) > 10`, pop digits, phrase
words, `|`, two-word phrases, or pattern matches off the end. -/
def trimTrailing : Nat → List (List Char) → List (List Char)
  | 0, ws => ws
  | fuel + 1, ws =>
    if ws.length > 10 then
      let lastWord := lowerL (ws.getLastD [])
      if isArtifactWord lastWord then trimTrailing fuel ws.dropLast
      else if ws.length ≥ 2 &&
          inArtifactPhrases
            (lowerL (ws.dropLast.getLastD [] ++ ' ' :: ws.getLastD [])) then
        trimTrailing fuel ws.dropLast.dropLast
      else if matchesArtifactPattern lastWord then trimTrailing fuel ws.dropLast
      else ws
    else ws

/-- The leading-trim loop, symmetric off the front. -/
def trimLeading : Nat → List (List Char) → List (List Char)
  | 0, ws => ws
  | fuel + 1, ws =>
    if ws.length > 10 then
      let firstWord := lowerL (ws.headD [])
      if isArtifactWord firstWord then trimLeading fuel ws.tail
      else if ws.length ≥ 2 &&
          inArtifactPhrases
            (lowerL (ws.headD [] ++ ' ' :: ws.tail.headD [])) then
        trimLeading fuel ws.tail.tail
      else if matchesArtifactPattern firstWord then trimLeading fuel ws.tail
      else ws
    else ws

/-- `ItemExtractor._strip_headers_footers`. -/
def stripHeadersFooters (text : String) : String :=
  let pages := ((splitOn pageBreakMarker.data text.data).map pyStrip).filter
    fun p => !p.isEmpty
  if pages.isEmpty then text
  else
    let cleaned := pages.map fun page =>
      let ws0 := pyWords page
      if ws0.isEmpty then page
      else
        let ws1 := trimTrailing ws0.length ws0
        let ws2 := trimLeading ws1.length ws1
        if ws2.isEmpty then [] else joinSpace ws2
    String.mk (pyStrip (joinSpace (cleaned.filter fun p => !(pyStrip p).isEmpty)))

/-! ### `extract_item` -/

/-- Inner body of the page-break pattern: somewhere in the run of
non-`>` characters after `<hr`, the contiguous sequence
`page-break-after\s*:\s*always` occurs. -/
def hasPageBreakStyle : List Char → Bool
  | [] => false
  | c :: cs =>
    (match eatCI "page-break-after".data (c :: cs) with
     | none => false
     | some r1 =>
       match eatChar ':' (eatWs r1) with
       | none => false
       | some r2 => (eatCI "always".data (eatWs r2)).isSome) ||
    hasPageBreakStyle cs

/-- `<hr[^>]*page-break-after\s*:\s*always[^>]*>` (case-insensitive) at
position `i`; returns the match end (one past the first `>` after
`<hr`). -/
def matchHrBreakAt (cs : List Char) (i : Nat) : Option Nat :=
  match eatCI "<hr".data (cs.drop i) with
  | none => none
  | some rest =>
    let run := rest.takeWhile (· ≠ '>')
    if (rest.drop run.length).head? = some '>' && hasPageBreakStyle run then
      some (i + 3 + run.length + 1)
    else none

/-- The `re.sub` rewriting page-break `<hr>`s into
`"\nPAGE_BREAK_MARKER\n"`. -/
def pageBreakSubFrom (cs : List Char) : Nat → Nat → List Char
  | _, 0 => []
  | i, fuel + 1 =>
    if i ≥ cs.length then []
    else
      match matchHrBreakAt cs i with
      | some e => ('\n' :: pageBreakMarker.data ++ ['\n']) ++ pageBreakSubFrom cs e fuel
      | none => cs.getD i ' ' :: pageBreakSubFrom cs (i + 1) fuel

def pageBreakSub (cs : List Char) : List Char :=
  pageBreakSubFrom cs 0 (cs.length + 1)

/-- The result record of `extract_item`. -/
structure ExtractedItem where
  item_number : String
  item_title : String
  html_content : String
  text_content : String
deriving DecidableEq, Repr

/-- `ItemExtractor.extract_item`.  BeautifulSoup's parse of the sliced
markup (`BeautifulSoup(…, 'lxml')` with `script`/`style` decomposed,
yielding `str(soup)` and `soup.get_text(' ')`) is an external library
call, taken as the parameter `parse`. -/
def extract_item (parse : String → String × String) (html : String)
    (itemNumber : String) (tocItems : List (String × TocEntry)) :
    Except String ExtractedItem :=
  match List.lookup itemNumber tocItems with
  | none => .error ("Item " ++ itemNumber ++ " not found in TOC")
  | some entry =>
    match List.lookup itemNumber (get_item_positions html tocItems) with
    | none => .error ("Could not locate Item " ++ itemNumber ++ " in the document")
    | some (s, e) =>
      let itemHtml := String.mk ((html.data.drop s).take (e - s))
      let withBreaks := String.mk (pageBreakSub itemHtml.data)
      let parsed := parse withBreaks
      let text := stripHeadersFooters (String.mk (joinSpace (pyWords parsed.2.data)))
      .ok { item_number := itemNumber,
            item_title := entry.title.getD ("Item " ++ itemNumber),
            html_content := parsed.1,
            text_content := text }

/-! ## Claim C4 — the ten-word floor of the Artifact Filter -/

/-- C4.  The code intends to keep at least 10 words per page (its inline
comments say "keep at least 10 words"), but the two-word-phrase branch
pops two words from an 11-word page, leaving 9: on a page of 11 words
ending in the artifact phrase "not applicable", the cleaned page has only
9 words. -/
theorem claim_C4_code_bug :
    (pyWords ("a b c d e f g h i not applicable" : String).data).length = 11 ∧
    stripHeadersFooters "a b c d e f g h i not applicable" = "a b c d e f g h i" ∧
    (pyWords ("a b c d e f g h i" : String).data).length = 9 :=
  ⟨by decide, by decide, by decide⟩

/-! ## Claim C8 — when `extract_item` fails -/

theorem lookup_some_mem {β : Type} {k : String} {v : β} :
    ∀ {l : List (String × β)}, List.lookup k l = some v → (k, v) ∈ l := by
  intro l
  induction l with
  | nil => intro h; cases h
  | cons hd tl ih =>
    intro h
    obtain ⟨k', v'⟩ := hd
    rw [List.lookup] at h
    cases hbe : (k == k') with
    | true =>
      rw [hbe] at h
      have hk : k = k' := by simpa using hbe
      have hv : v' = v := Option.some.inj h
      rw [hk, hv]
      exact List.mem_cons_self _ _
    | false =>
      rw [hbe] at h
      exact List.mem_cons_of_mem _ (ih h)

theorem mem_lookup_of_nodup {β : Type} {k : String} {v : β} :
    ∀ {l : List (String × β)}, (l.map Prod.fst).Nodup → (k, v) ∈ l →
      List.lookup k l = some v := by
  intro l
  induction l with
  | nil => intro _ h; cases h
  | cons hd tl ih =>
    intro hnd hmem
    obtain ⟨k', v'⟩ := hd
    rw [List.map_cons] at hnd
    obtain ⟨hknotin, hndtl⟩ := List.nodup_cons.mp hnd
    rcases List.mem_cons.mp hmem with heq | hmem'
    · obtain ⟨h1, h2⟩ := Prod.mk.injEq .. ▸ heq
      rw [h1, List.lookup]
      simp [h2]
    · have hne : k ≠ k' := by
        intro he
        subst he
        exact hknotin (List.mem_map.mpr ⟨(k, v), hmem', rfl⟩)
      rw [lookup_cons_ne _ _ hne]
      exact ih hndtl hmem'

theorem insertSorted_perm (x : String × TocEntry) :
    ∀ l, List.Perm (insertSorted x l) (x :: l) := by
  intro l
  induction l with
  | nil => exact List.Perm.refl _
  | cons y ys ih =>
    rw [insertSorted]
    by_cases hk : keyLE (itemSortKey x.1) (itemSortKey y.1) = true
    · rw [if_pos hk]
    · rw [if_neg hk]
      exact (List.Perm.cons y ih).trans (List.Perm.swap x y ys)

theorem sortItems_perm : ∀ l, List.Perm (sortItems l) l := by
  intro l
  induction l with
  | nil => exact List.Perm.refl _
  | cons x xs ih =>
    rw [sortItems]
    exact (insertSorted_perm x (sortItems xs)).trans (List.Perm.cons x ih)

/-- An item is missing from the positions mapping exactly when every TOC
entry under its key has an anchor that literal search cannot locate. -/
theorem positionsLoop_lookup_none_iff {cs : List Char} :
    ∀ {l : List (String × TocEntry)} {k : String}, (l.map Prod.fst).Nodup →
      (List.lookup k (positionsLoop cs l) = none ↔
        ∀ e, (k, e) ∈ l → startPosOf cs e.anchor = none) := by
  intro l
  induction l with
  | nil =>
    intro k _
    constructor
    · intro _ e he
      cases he
    · intro _
      rfl
  | cons hd rest ih =>
    intro k hnd
    obtain ⟨k', e'⟩ := hd
    rw [List.map_cons] at hnd
    obtain ⟨hknotin, hndtl⟩ := List.nodup_cons.mp hnd
    rw [positionsLoop]
    rcases hsp : startPosOf cs e'.anchor with _ | s
    · constructor
      · intro h e he
        rcases List.mem_cons.mp he with heq | hmem
        · obtain ⟨h1, h2⟩ := Prod.mk.injEq .. ▸ heq
          rw [h2]
          exact hsp
        · exact ((ih hndtl).mp h) e hmem
      · intro h
        exact (ih hndtl).mpr fun e he => h e (List.mem_cons_of_mem _ he)
    · by_cases hk : k = k'
      · subst hk
        constructor
        · intro h
          cases rest with
          | nil =>
            rw [show List.lookup k ((k, s, endPosLast cs s) :: positionsLoop cs []) =
                some (s, endPosLast cs s) from lookup_cons_self _ _ _] at h
            cases h
          | cons nxt rest' =>
            rw [show List.lookup k ((k, s, endPosNext cs s nxt.2.anchor) ::
                positionsLoop cs (nxt :: rest')) =
                some (s, endPosNext cs s nxt.2.anchor) from lookup_cons_self _ _ _] at h
            cases h
        · intro h
          have := h e' (List.mem_cons_self _ _)
          rw [hsp] at this
          cases this
      · have hskip : ∀ E, List.lookup k ((k', s, E) :: positionsLoop cs rest) =
            List.lookup k (positionsLoop cs rest) :=
          fun E => lookup_cons_ne _ _ hk
        cases rest with
        | nil =>
          rw [hskip (endPosLast cs s)]
          constructor
          · intro h e he
            rcases List.mem_cons.mp he with heq | hmem
            · exact absurd (congrArg Prod.fst heq) hk
            · exact ((ih hndtl).mp h) e hmem
          · intro h
            exact (ih hndtl).mpr fun e he => h e (List.mem_cons_of_mem _ he)
        | cons nxt rest' =>
          rw [hskip (endPosNext cs s nxt.2.anchor)]
          constructor
          · intro h e he
            rcases List.mem_cons.mp he with heq | hmem
            · exact absurd (congrArg Prod.fst heq) hk
            · exact ((ih hndtl).mp h) e hmem
          · intro h
            exact (ih hndtl).mpr fun e he => h e (List.mem_cons_of_mem _ he)

/-- C8, confirmed.  `extract_item` fails exactly when the requested item
is absent from the TOC mapping or its entry's anchor has no resolvable
range (its `id`/`name` attribute is falsy or not found by literal
search); in every other case it returns a record carrying the item
number, the entry's title (with the `Item n` default), and the cleaned
markup and plain text derived from the section's slice. -/
theorem claim_C8 (parse : String → String × String) (html itemNumber : String)
    (tocItems : List (String × TocEntry))
    (hnd : (tocItems.map Prod.fst).Nodup) :
    ((∃ msg, extract_item parse html itemNumber tocItems = .error msg) ↔
      (List.lookup itemNumber tocItems = none ∨
        ∃ entry, List.lookup itemNumber tocItems = some entry ∧
          startPosOf html.data entry.anchor = none)) ∧
    (∀ r, extract_item parse html itemNumber tocItems = .ok r →
      r.item_number = itemNumber ∧
      ∃ entry, List.lookup itemNumber tocItems = some entry ∧
        r.item_title = entry.title.getD ("Item " ++ itemNumber)) := by
  have hnd' : ((sortItems tocItems).map Prod.fst).Nodup :=
    (((sortItems_perm tocItems).map Prod.fst).nodup_iff).mpr hnd
  rcases hlt : List.lookup itemNumber tocItems with _ | entry
  · constructor
    · constructor
      · intro _
        exact Or.inl rfl
      · intro _
        refine ⟨"Item " ++ itemNumber ++ " not found in TOC", ?_⟩
        rw [extract_item, hlt]
    · intro r hr
      rw [extract_item, hlt] at hr
      cases hr
  · have hchar : List.lookup itemNumber (get_item_positions html tocItems) = none ↔
        startPosOf html.data entry.anchor = none := by
      rw [get_item_positions]
      rw [positionsLoop_lookup_none_iff hnd']
      constructor
      · intro h
        exact h entry (((sortItems_perm tocItems).mem_iff).mpr (lookup_some_mem hlt))
      · intro h e he
        have hse : List.lookup itemNumber tocItems = some e :=
          mem_lookup_of_nodup hnd (((sortItems_perm tocItems).mem_iff).mp he)
        rw [hlt] at hse
        exact (Option.some.inj hse) ▸ h
    rcases hlp : List.lookup itemNumber (get_item_positions html tocItems) with _ | se
    · constructor
      · constructor
        · intro _
          exact Or.inr ⟨entry, rfl, hchar.mp hlp⟩
        · intro _
          refine ⟨"Could not locate Item " ++ itemNumber ++ " in the document", ?_⟩
          rw [extract_item, hlt, hlp]
      · intro r hr
        rw [extract_item, hlt, hlp] at hr
        cases hr
    · obtain ⟨s, e⟩ := se
      constructor
      · constructor
        · rintro ⟨msg, hmsg⟩
          rw [extract_item, hlt, hlp] at hmsg
          cases hmsg
        · rintro (h | ⟨entry', hentry', hsp⟩)
          · cases h
          · have hsp' : startPosOf html.data entry.anchor = none := by
              rw [Option.some.inj hentry']
              exact hsp
            have hcontra : List.lookup itemNumber (get_item_positions html tocItems) = none :=
              hchar.mpr hsp'
            rw [hlp] at hcontra
            cases hcontra
      · intro r hr
        rw [extract_item, hlt, hlp] at hr
        have := Except.ok.inj hr
        rw [← this]
        exact ⟨rfl, entry, rfl, rfl⟩

/-- C8, witness: a present, locatable item succeeds with the recorded
title; an absent one fails. -/
theorem claim_C8_witness :
    (∃ msg, extract_item (fun st => (st, st)) fwdHtml "7" exToc = .error msg) ∧
    (∀ r, extract_item (fun st => (st, st)) fwdHtml "1" exToc = .ok r →
      r.item_number = "1" ∧
      ∃ entry, List.lookup "1" exToc = some entry ∧
        r.item_title = entry.title.getD ("Item " ++ "1")) :=
  ⟨(claim_C8 (fun st => (st, st)) fwdHtml "7" exToc (by decide)).1.mpr
      (Or.inl (by decide)),
    (claim_C8 (fun st => (st, st)) fwdHtml "1" exToc (by decide)).2⟩

end RAG4PeerFirm
